import Mathlib

/-!
# Verification of the render-hash-cluster pipeline (`src/main.py`)

Shallow embedding of the tier pipeline of `main.py`:

* `renderTask` embeds `render_and_screenshot_task`: it returns
  `some (document name, screenshot path)` on success and `none` on failure
  (the Python function returns `None` after printing the error), and on
  success writes exactly one file at the screenshot path.
* `computeHashes` embeds `compute_hashes`: per-item it either produces the
  document's fingerprint or is dropped (the Python `_hash_item` returns
  `None` on decode failure, and the `None`s are filtered out).
* The DBSCAN clustering (`DBSCAN(eps=0.25, min_samples=2, metric='hamming')`
  followed by `fit_predict`) is embedded by `dbscanLabels`, a faithful
  rendition of scikit-learn's algorithm: neighborhoods are the points at
  normalized Hamming distance `≤ eps` (scikit-learn's `radius_neighbors`
  is inclusive: `eps` is documented as "the maximum distance between two
  samples for one to be considered as in the neighborhood of the other"),
  a point is core when its neighborhood (itself included) has at least
  `min_samples` members, and the labels are produced by the sequential
  seed-and-expand loop of `dbscan_inner`: scan the points in index order,
  and every yet-unlabeled core point seeds a new cluster that is grown by
  a LIFO worklist over the unlabeled neighbors of its labeled core points.
  Distances are modeled with `ℚ`; the float values that occur (counts of
  differing bits over the fixed power-of-two fingerprint widths, compared
  against 0.25) are all exactly representable dyadic rationals, so the
  rational model is exact.
* `groupByLabel` embeds the `groups.setdefault(label, []).append(filename)`
  fold (a Python dict preserves key insertion order).
* `processTierGroups` / `remainingFiles` embed `process_tier`'s returned
  grouping and the set of files left on disk when it returns, including
  its two early-return paths and the terminal cleanup
  (`os.remove` of every rendered screenshot, plus `shutil.rmtree` of the
  tier output directory when groups are not being saved).
-/

/-! ## Python string primitives used by `process_tier` -/

/-- Code-point lexicographic comparison of character lists: the order Python's
`sorted` uses on `str`. -/
def strLeB : List Char → List Char → Bool
  | [], _ => true
  | _ :: _, [] => false
  | a :: as, b :: bs =>
    if a.toNat < b.toNat then true
    else if b.toNat < a.toNat then false
    else strLeB as bs

/-- `a <= b` on Python strings. -/
def strLe (a b : String) : Bool :=
  strLeB a.data b.data

/-- Insert into an ascending list (helper of `sortNames`). -/
def insertSorted (f : String) : List String → List String
  | [] => [f]
  | g :: rest => if strLe f g then f :: g :: rest else g :: insertSorted f rest

/-- Python's `sorted` on a list of strings (insertion sort; `sorted` is
stable, and any stable comparison sort produces this same list). -/
def sortNames : List String → List String
  | [] => []
  | f :: rest => insertSorted f (sortNames rest)

/-- Python's `s.endswith(suffix)`: the last `len(suffix)` characters of `s`
are exactly `suffix`. -/
def endsWithStr (s suffix : String) : Bool :=
  decide (suffix.data = s.data.drop (s.data.length - suffix.data.length))

/-! ## Normalized Hamming distance over bit vectors -/

/-- Number of coordinates at which two bit vectors differ
(`metric='hamming'` numerator: entries of the boolean hash matrix). -/
def countDiff (u v : List Bool) : Nat :=
  ((u.zip v).filter (fun p => p.1 != p.2)).length

/-- Normalized Hamming distance: fraction of differing coordinates, as used by
scikit-learn's `hamming` metric over the rows of the integer hash matrix.
All rows of the matrix share the same width (the fingerprint bit length).
Stated with `mkRat`; `hamming_eq_div` below rewrites it as the fraction. -/
def hamming (u v : List Bool) : ℚ :=
  mkRat (countDiff u v) u.length

/-! ## DBSCAN (scikit-learn `fit_predict` with precomputed neighborhoods) -/

/-- Radius neighborhood of point `i`: indices of points at Hamming distance
`≤ eps` (inclusive, as in scikit-learn's `radius_neighbors`). -/
def nbrsOf (X : List (List Bool)) (eps : ℚ) (i : Nat) : List Nat :=
  (List.range X.length).filter (fun j =>
    decide (hamming (X.getD i []) (X.getD j []) ≤ eps))

/-- Core test: at least `min_samples` neighbors, the point itself included. -/
def isCoreOf (X : List (List Bool)) (eps : ℚ) (minPts : Nat) (i : Nat) : Bool :=
  decide (minPts ≤ (nbrsOf X eps i).length)

/-- Pop the work stack (top at the head) until an unlabeled index is found;
`dbscan_inner` pops labeled indices and immediately skips them, which is the
same as discarding them here. -/
def popNext (labels : List Int) : List Nat → Option (Nat × List Nat)
  | [] => none
  | v :: rest =>
    if labels.getD v 0 = -1 then some (v, rest) else popNext labels rest

/-- One cluster expansion of `dbscan_inner`: label the current index `i`
(always unlabeled when reached), push the still-unlabeled neighbors if `i` is
core (the membership test runs after `i` got its label, as in the Cython
loop), then continue with the next unlabeled stack entry.  The counter `k`
makes the recursion structural; it only needs to dominate the number of
unlabeled entries, which `dbscanOuter` supplies via `labels.length`. -/
def expandGo (nbrs : Nat → List Nat) (isCore : Nat → Bool) (lab : Int) :
    Nat → List Int → Nat → List Nat → List Int
  | 0, labels, _, _ => labels
  | k + 1, labels, i, stack =>
    if labels.getD i 0 = -1 then
      let labels2 := labels.set i lab
      let pushes :=
        if isCore i then (nbrs i).filter (fun v => labels2.getD v 0 == -1)
        else []
      match popNext labels2 (pushes.reverse ++ stack) with
      | none => labels2
      | some (j, rest) => expandGo nbrs isCore lab k labels2 j rest
    else
      match popNext labels stack with
      | none => labels
      | some (j, rest) => expandGo nbrs isCore lab k labels j rest

/-- Outer loop of `dbscan_inner`: scan the indices in order; every unlabeled
core point seeds a fresh cluster label. -/
def dbscanOuter (nbrs : Nat → List Nat) (isCore : Nat → Bool) :
    List Nat → Nat → List Int → List Int
  | [], _, labels => labels
  | i :: rest, labelNum, labels =>
    if labels.getD i 0 = -1 ∧ isCore i = true then
      dbscanOuter nbrs isCore rest (labelNum + 1)
        (expandGo nbrs isCore (labelNum : Int) labels.length labels i [])
    else
      dbscanOuter nbrs isCore rest labelNum labels

/-- `DBSCAN(eps, min_samples, metric='hamming').fit_predict(X)`:
per-point labels, `-1` for noise. -/
def dbscanLabels (X : List (List Bool)) (eps : ℚ) (minPts : Nat) : List Int :=
  dbscanOuter (nbrsOf X eps) (isCoreOf X eps minPts)
    (List.range X.length) 0 (List.replicate X.length (-1))

/-! ## Grouping by label (`groups.setdefault(label, []).append(filename)`) -/

/-- Append `f` to the bucket of key `l`, creating the bucket at the end when
the key is new — exactly a Python dict's `setdefault(l, []).append(f)`,
which preserves key insertion order. -/
def addToGroup : List (Int × List String) → Int → String → List (Int × List String)
  | [], l, f => [(l, [f])]
  | (l', fs) :: rest, l, f =>
    if l' = l then (l', fs ++ [f]) :: rest
    else (l', fs) :: addToGroup rest l f

/-- Fold of `addToGroup` over the `(label, filename)` pairs. -/
def groupFold (acc : List (Int × List String)) :
    List (Int × String) → List (Int × List String)
  | [] => acc
  | p :: ps => groupFold (addToGroup acc p.1 p.2) ps

/-- The `groups` dict of `process_tier`, as an insertion-ordered
association list. -/
def groupByLabel (ps : List (Int × String)) : List (Int × List String) :=
  groupFold [] ps

/-- The clustering stage of `process_tier` on `(filename, fingerprint)`
pairs, with the configured `eps=0.25` and `min_samples=2`. -/
def clusterGroups (ps : List (String × List Bool)) : List (Int × List String) :=
  groupByLabel (((dbscanLabels (ps.map (·.2)) (mkRat 1 4) 2)).zip (ps.map (·.1)))

/-! ## The tier pipeline (`process_tier`) -/

/-- Inputs of one `process_tier` call: the directory listing of the tier, and
the per-document behavior of the external collaborators (whether Chrome
renders the document, whether PIL decodes its screenshot, and the
fingerprint `imagehash` computes for it — rendering and hashing are
deterministic per document). -/
structure TierEnv where
  tierPath : String
  tierName : String
  outputRoot : String
  /-- `os.listdir(tier_path)` -/
  entries : List String
  /-- whether `render_and_screenshot_task` succeeds for this document -/
  renderOk : String → Bool
  /-- whether `_hash_item` succeeds for this document's screenshot -/
  hashOk : String → Bool
  /-- the concatenated `phash ++ dhash` bit vector of this document's
  screenshot -/
  fp : String → List Bool
  saveGroups : Bool

/-- `tier_output_dir`: under `output_root` when saving groups, else under
`/tmp`. -/
def tierOutputDir (e : TierEnv) : String :=
  if e.saveGroups then e.outputRoot ++ "/" ++ e.tierName
  else "/tmp/temp_" ++ e.tierName

/-- `sorted(f for f in os.listdir(tier_path) if f.endswith(".html"))`. -/
def htmlFiles (e : TierEnv) : List String :=
  sortNames (e.entries.filter (fun f => endsWithStr f ".html"))

/-- Destination screenshot path of a document. -/
def screenshotPath (e : TierEnv) (f : String) : String :=
  tierOutputDir e ++ "/" ++ f ++ ".png"

/-- The task list handed to `Pool.map`: one `(document name, screenshot path)`
pair per discovered document.  (`main.py` stores the absolute source path and
recovers the name with `os.path.basename`; since the names come from a single
directory listing the round trip is the identity, so the task carries the
name directly.) -/
def tasksOf (e : TierEnv) : List (String × String) :=
  (htmlFiles e).map (fun f => (f, screenshotPath e f))

/-- `render_and_screenshot_task`: `some (document name, screenshot path)` on
success, `None` on failure (the exception is printed, not returned). -/
def renderTask (renderOk : String → Bool) (t : String × String) :
    Option (String × String) :=
  if renderOk t.1 then some t else none

/-- `pool.map(render_and_screenshot_task, tasks)`: one result per task, in
task order. -/
def renderResults (e : TierEnv) : List (Option (String × String)) :=
  (tasksOf e).map (renderTask e.renderOk)

/-- `screenshot_map`: the successful render results (`if result` drops the
`None`s; the document names are distinct, so dict insertion keeps them all). -/
def screenshotMap (e : TierEnv) : List (String × String) :=
  (renderResults e).filterMap id

/-- The screenshot files written during the rendering stage: exactly one per
successful task (a failing task writes none, per the task contract). -/
def writtenScreenshots (e : TierEnv) : List String :=
  (screenshotMap e).map (·.2)

/-- `compute_hashes(screenshot_map.items())`: fingerprint every successfully
rendered document, dropping the items whose screenshot fails to decode. -/
def hashedOf (e : TierEnv) : List (String × List Bool) :=
  ((screenshotMap e).filter (fun p => e.hashOk p.1)).map (fun p => (p.1, e.fp p.1))

/-- Cluster labels computed by `process_tier` for the hashed documents
(`DBSCAN(eps=0.25, min_samples=2, metric='hamming')`; `mkRat 1 4 = 0.25`
exactly). -/
def labelsOf (e : TierEnv) : List Int :=
  dbscanLabels ((hashedOf e).map (·.2)) (mkRat 1 4) 2

/-- `zip(labels, filenames)`. -/
def labeledOf (e : TierEnv) : List (Int × String) :=
  (labelsOf e).zip ((hashedOf e).map (·.1))

/-- The `groups` dict of `process_tier`. -/
def groupsOf (e : TierEnv) : List (Int × List String) :=
  groupByLabel (labeledOf e)

/-- `final_groups`: the grouped filenames in key insertion order. -/
def finalGroups (e : TierEnv) : List (List String) :=
  (groupsOf e).map (·.2)

/-- The value returned by `process_tier`, including its two early returns
(no successful screenshot, and no valid hash). -/
def processTierGroups (e : TierEnv) : List (List String) :=
  if screenshotMap e = [] then []
  else if hashedOf e = [] then []
  else finalGroups e

/-- Folder suffix used by the persisting loop:
`f"group_{i if label != -1 else 'noise'}"` where `i` is the `enumerate`
index of the group. -/
def groupTag (i : Nat) (l : Int) : String :=
  if l ≠ -1 then toString i else "noise"

/-- Files written by the persisting loop (`shutil.copy` of each grouped
document's screenshot into its group folder); nothing when the caller opted
out of saving groups. -/
def persistedCopies (e : TierEnv) : List String :=
  if e.saveGroups then
    ((groupsOf e).enum).flatMap (fun gi =>
      gi.2.2.map (fun f =>
        tierOutputDir e ++ "/group_" ++ groupTag gi.1 gi.2.1 ++ "/" ++ f ++ ".png"))
  else []

/-- Is `p` a path strictly inside directory `dir` (what `shutil.rmtree dir`
deletes)? -/
def underDir (dir p : String) : Bool :=
  (p.take (dir ++ "/").length) == (dir ++ "/")

/-- The files present when `process_tier` returns.  The two early-return
paths skip the cleanup entirely; the full path removes every rendered
screenshot one by one (`os.remove`) and, when groups are not being saved,
the whole tier output directory (`shutil.rmtree`). -/
def remainingFiles (e : TierEnv) : List String :=
  if screenshotMap e = [] then writtenScreenshots e
  else if hashedOf e = [] then writtenScreenshots e
  else
    let afterPersist := writtenScreenshots e ++ persistedCopies e
    let afterRemove :=
      afterPersist.filter (fun p => !((writtenScreenshots e).contains p))
    if e.saveGroups then afterRemove
    else afterRemove.filter (fun p => !(underDir (tierOutputDir e) p))

/-! ## Derived definitions used by the verification (invariants,
declarative characterizations, and concrete inputs for witnesses) -/

/-- Number of still-unlabeled (`-1`) entries. -/
def countNeg (l : List Int) : Nat :=
  l.countP (fun x => x == -1)

/-- Adjacency of two core points in the radius-neighborhood graph. -/
def CoreAdj (n : Nat) (nbrs : Nat → List Nat) (isCore : Nat → Bool)
    (i j : Nat) : Prop :=
  i < n ∧ j < n ∧ j ∈ nbrs i ∧ isCore i = true ∧ isCore j = true

/-- Chain connectivity through core points — the spec's
"maximal set of points connected through a chain of core points". -/
def CoreConn (n : Nat) (nbrs : Nat → List Nat) (isCore : Nat → Bool)
    (i j : Nat) : Prop :=
  Relation.ReflTransGen (CoreAdj n nbrs isCore) i j

/-- Invariant carried by the outer scan of `dbscan_inner`: labels live on
core points only, are constant on connected components, separate distinct
components, and all assigned label values are below the running counter. -/
def LoopInv (n : Nat) (nbrs : Nat → List Nat) (isCore : Nat → Bool)
    (labelNum : Nat) (labels : List Int) : Prop :=
  labels.length = n ∧
  (∀ j, j < n → labels.getD j 0 ≠ -1 → isCore j = true) ∧
  (∀ j k, j < n → k < n → labels.getD j 0 ≠ -1 →
    CoreConn n nbrs isCore j k → labels.getD k 0 = labels.getD j 0) ∧
  (∀ j k, j < n → k < n → labels.getD j 0 ≠ -1 →
    labels.getD j 0 = labels.getD k 0 → CoreConn n nbrs isCore j k) ∧
  (∀ j, j < n → labels.getD j 0 = -1 ∨
    ∃ m : Nat, m < labelNum ∧ labels.getD j 0 = (m : Int))

/-- All rows of the hash matrix share one width (the `np.array(hashes)`
matrix is rectangular: every fingerprint is `phash ++ dhash` bits). -/
def SameLen (X : List (List Bool)) : Prop :=
  ∀ u ∈ X, ∀ v ∈ X, u.length = v.length

/-- Concrete three-document input reused by several witnesses: two documents
with identical fingerprints and one with a far-away fingerprint. -/
def psW : List (String × List Bool) :=
  [("a.html", [true, true]), ("b.html", [true, true]),
   ("c.html", [false, false])]

/-- Tier with no `.html` entry, for the C7 witness. -/
def envW7 : TierEnv :=
  { tierPath := "./clones/t0", tierName := "t0", outputRoot := "/out",
    entries := ["readme.txt"], renderOk := fun _ => true,
    hashOk := fun _ => true, fp := fun _ => [true], saveGroups := false }

/-- Tier listing mixing `.html` and other entries, for the C10 witness. -/
def envW10 : TierEnv :=
  { tierPath := "./clones/t0", tierName := "t0", outputRoot := "/out",
    entries := ["b.html", "notes.txt", "a.html"], renderOk := fun _ => true,
    hashOk := fun _ => true, fp := fun _ => [true, true],
    saveGroups := false }

/-- One successful and one failing render, for the C3 witness. -/
def envW3 : TierEnv :=
  { tierPath := "./clones/t3", tierName := "t3", outputRoot := "/out",
    entries := ["a.html", "b.html"], renderOk := fun f => f == "a.html",
    hashOk := fun _ => true, fp := fun _ => [true, true],
    saveGroups := false }

/-- 32-bit all-zero fingerprint. -/
def fpZero : List Bool := List.replicate 32 false

/-- Fingerprint differing from `fpZero` in 9 of 32 bits. -/
def fpNine : List Bool := List.replicate 9 true ++ List.replicate 23 false

/-- Fingerprint differing from `fpZero` in 7 of 32 bits. -/
def fpSeven : List Bool := List.replicate 7 true ++ List.replicate 25 false

/-- Renders succeed but every hash fails: the pipeline returns before its
cleanup step. -/
def envC1 : TierEnv :=
  { tierPath := "./clones/t1", tierName := "t1", outputRoot := "/out",
    entries := ["a.html"], renderOk := fun _ => true,
    hashOk := fun _ => false, fp := fun _ => [true],
    saveGroups := false }

/-- Successful end-to-end run with discard, for the C1 witness. -/
def envW1 : TierEnv :=
  { tierPath := "./clones/t1", tierName := "t1", outputRoot := "/out",
    entries := ["a.html", "b.html"], renderOk := fun _ => true,
    hashOk := fun _ => true, fp := fun _ => [true, true],
    saveGroups := false }

/-- Noise group first, so the enumerate index of the label-0 cluster is 1,
not 0. -/
def envC8 : TierEnv :=
  { tierPath := "./clones/t1", tierName := "t1", outputRoot := "/out",
    entries := ["a.html", "b.html", "c.html"], renderOk := fun _ => true,
    hashOk := fun _ => true,
    fp := fun f => if f == "a.html" then [true, true, true, true]
      else [false, false, false, false],
    saveGroups := true }

/-- Two documents with the same fingerprint, for the C5 witness. -/
def psW5 : List (String × List Bool) :=
  [("a.html", [true, false]), ("b.html", [true, false])]

/-- A pair is core: some other input pair lies within `eps`
(`min_samples = 2`). -/
def MCore (ps : List (String × List Bool)) (p : String × List Bool) : Prop :=
  p ∈ ps ∧ ∃ q ∈ ps, q ≠ p ∧ hamming p.2 q.2 ≤ mkRat 1 4

/-- Two core pairs within `eps` of each other. -/
def MAdj (ps : List (String × List Bool)) (p q : String × List Bool) : Prop :=
  MCore ps p ∧ MCore ps q ∧ hamming p.2 q.2 ≤ mkRat 1 4

/-- Connectivity through a chain of core pairs. -/
def MConn (ps : List (String × List Bool)) :
    (String × List Bool) → (String × List Bool) → Prop :=
  Relation.ReflTransGen (MAdj ps)

/-- Two documents appear together in one non-noise group of the output. -/
def sameCluster (ps : List (String × List Bool)) (x y : String) : Prop :=
  ∃ l fs, (l, fs) ∈ clusterGroups ps ∧ l ≠ -1 ∧ x ∈ fs ∧ y ∈ fs

/-- The document appears in the noise group of the output. -/
def noiseDoc (ps : List (String × List Bool)) (x : String) : Prop :=
  ∃ fs, ((-1 : Int), fs) ∈ clusterGroups ps ∧ x ∈ fs

/-! ## Small list lemmas used throughout -/

theorem getD_set_self {l : List Int} {i : Nat} {a : Int} (h : i < l.length) :
    (l.set i a).getD i 0 = a := by
  induction l generalizing i with
  | nil => simp at h
  | cons x xs ih =>
    cases i with
    | zero => simp
    | succ n => simpa using ih (by simpa using h)

theorem getD_set_ne {l : List Int} {i j : Nat} {a : Int} (h : i ≠ j) :
    (l.set i a).getD j 0 = l.getD j 0 := by
  induction l generalizing i j with
  | nil => simp
  | cons x xs ih =>
    cases i with
    | zero =>
      cases j with
      | zero => exact absurd rfl h
      | succ m => simp
    | succ n =>
      cases j with
      | zero => simp
      | succ m => simpa using ih (by omega)

theorem getD_neg_of_lt {l : List Int} {i : Nat} (h : l.getD i 0 = -1) :
    i < l.length := by
  by_contra hn
  rw [List.getD_eq_default] at h
  · exact absurd h (by decide)
  · omega

theorem countNeg_le_length (l : List Int) : countNeg l ≤ l.length :=
  List.countP_le_length _

theorem countNeg_pos {l : List Int} {i : Nat} (h : l.getD i 0 = -1) :
    0 < countNeg l := by
  induction l generalizing i with
  | nil =>
    rw [List.getD_nil] at h
    exact absurd h (by decide)
  | cons x xs ih =>
    cases i with
    | zero =>
      rw [List.getD_cons_zero] at h
      simp [countNeg, List.countP_cons, h]
    | succ n =>
      rw [List.getD_cons_succ] at h
      have hx := ih (i := n) h
      simp only [countNeg, List.countP_cons] at hx ⊢
      omega

theorem countNeg_set {l : List Int} {i : Nat} {a : Int}
    (h2 : l.getD i 0 = -1) (ha : a ≠ -1) :
    countNeg (l.set i a) + 1 = countNeg l := by
  induction l generalizing i with
  | nil =>
    rw [List.getD_nil] at h2
    exact absurd h2 (by decide)
  | cons x xs ih =>
    cases i with
    | zero =>
      rw [List.getD_cons_zero] at h2
      subst h2
      have ha' : (a == (-1 : Int)) = false := by
        simpa using ha
      simp [countNeg, List.countP_cons, ha']
    | succ n =>
      rw [List.getD_cons_succ] at h2
      have hx := ih (i := n) h2
      simp only [List.set, countNeg, List.countP_cons] at hx ⊢
      omega

theorem getD_replicate_neg {n i : Nat} (h : i < n) :
    (List.replicate n (-1 : Int)).getD i 0 = -1 := by
  induction n generalizing i with
  | zero => omega
  | succ m ih =>
    cases i with
    | zero => rw [List.replicate_succ, List.getD_cons_zero]
    | succ j =>
      rw [List.replicate_succ, List.getD_cons_succ]
      exact ih (by omega)

/-! ## `popNext` lemmas -/

theorem popNext_eq_none {labels : List Int} {st : List Nat} :
    popNext labels st = none ↔ ∀ v ∈ st, labels.getD v 0 ≠ -1 := by
  induction st with
  | nil => simp [popNext]
  | cons v rest ih =>
    rw [popNext]
    by_cases hv : labels.getD v 0 = -1
    · rw [if_pos hv]
      constructor
      · intro h
        exact absurd h (by simp)
      · intro h
        exact absurd hv (h v (List.mem_cons_self _ _))
    · rw [if_neg hv, ih]
      constructor
      · intro h w hw
        rcases List.mem_cons.mp hw with rfl | hw2
        · exact hv
        · exact h w hw2
      · intro h w hw
        exact h w (List.mem_cons_of_mem _ hw)

theorem popNext_some {labels : List Int} {st : List Nat} {j : Nat}
    {rest : List Nat} (h : popNext labels st = some (j, rest)) :
    labels.getD j 0 = -1 ∧ j ∈ st ∧ (∀ v ∈ rest, v ∈ st) ∧
      (∀ v ∈ st, labels.getD v 0 = -1 → v = j ∨ v ∈ rest) := by
  induction st generalizing rest with
  | nil => simp [popNext] at h
  | cons w tail ih =>
    by_cases hw : labels.getD w 0 = -1
    · simp only [popNext, if_pos hw, Option.some.injEq, Prod.mk.injEq] at h
      obtain ⟨rfl, rfl⟩ := h
      refine ⟨hw, by simp, fun v hv => by simp [hv], fun v hv _ => ?_⟩
      rcases List.mem_cons.mp hv with h1 | h1
      · exact Or.inl h1
      · exact Or.inr h1
    · simp only [popNext, if_neg hw] at h
      obtain ⟨h1, h2, h3, h4⟩ := ih h
      refine ⟨h1, List.mem_cons_of_mem _ h2, fun v hv => List.mem_cons_of_mem _ (h3 v hv), ?_⟩
      intro v hv hneg
      rcases List.mem_cons.mp hv with rfl | h5
      · exact absurd hneg hw
      · exact h4 v h5 hneg

/-! ## Length preservation of the clustering loops -/

theorem expandGo_length (nbrs : Nat → List Nat) (isCore : Nat → Bool)
    (lab : Int) :
    ∀ (k : Nat) (labels : List Int) (i : Nat) (stack : List Nat),
      (expandGo nbrs isCore lab k labels i stack).length = labels.length := by
  intro k
  induction k with
  | zero => intro labels i stack; rfl
  | succ k ih =>
    intro labels i stack
    rw [expandGo]
    by_cases hi : labels.getD i 0 = -1
    · simp only [if_pos hi]
      rcases hpop : popNext (labels.set i lab)
          (((if isCore i then (nbrs i).filter
              (fun v => (labels.set i lab).getD v 0 == -1) else []).reverse) ++ stack) with
        _ | ⟨j, rest⟩
      · simp [hpop, List.length_set]
      · simp [hpop, ih, List.length_set]
    · simp only [if_neg hi]
      rcases hpop : popNext labels stack with _ | ⟨j, rest⟩
      · simp [hpop]
      · simp [hpop, ih]

theorem dbscanOuter_length (nbrs : Nat → List Nat) (isCore : Nat → Bool) :
    ∀ (idxs : List Nat) (labelNum : Nat) (labels : List Int),
      (dbscanOuter nbrs isCore idxs labelNum labels).length = labels.length := by
  intro idxs
  induction idxs with
  | nil => intro labelNum labels; rfl
  | cons i rest ih =>
    intro labelNum labels
    rw [dbscanOuter]
    by_cases h : labels.getD i 0 = -1 ∧ isCore i = true
    · simp only [if_pos h]
      rw [ih, expandGo_length]
    · simp only [if_neg h]
      exact ih _ _

theorem dbscanLabels_length (X : List (List Bool)) (eps : ℚ) (minPts : Nat) :
    (dbscanLabels X eps minPts).length = X.length := by
  unfold dbscanLabels
  rw [dbscanOuter_length, List.length_replicate]

/-! ## Characterization of the DBSCAN labeling

The scikit-learn loop is characterized against the declarative picture of
the spec: a cluster is a maximal set of core points connected through a
chain of core points within `eps`.  With `min_samples = 2` every neighbor
of a core point is itself core, so there are no border points and the
label partition is exactly: noise = the non-core points, clusters = the
connected components of the core-adjacency graph. -/

theorem coreAdj_symm (n : Nat) (nbrs : Nat → List Nat) (isCore : Nat → Bool)
    (hSym : ∀ i j, i < n → j < n → j ∈ nbrs i → i ∈ nbrs j)
    {i j : Nat} (h : CoreAdj n nbrs isCore i j) :
    CoreAdj n nbrs isCore j i :=
  ⟨h.2.1, h.1, hSym i j h.1 h.2.1 h.2.2.1, h.2.2.2.2, h.2.2.2.1⟩

theorem coreConn_symm (n : Nat) (nbrs : Nat → List Nat) (isCore : Nat → Bool)
    (hSym : ∀ i j, i < n → j < n → j ∈ nbrs i → i ∈ nbrs j)
    {i j : Nat} (h : CoreConn n nbrs isCore i j) :
    CoreConn n nbrs isCore j i :=
  Relation.ReflTransGen.symmetric
    (fun _ _ hadj => coreAdj_symm n nbrs isCore hSym hadj) h

theorem coreConn_bounds (n : Nat) (nbrs : Nat → List Nat)
    (isCore : Nat → Bool) {i j : Nat} (h : CoreConn n nbrs isCore i j) :
    i = j ∨ (j < n ∧ isCore j = true) := by
  induction h with
  | refl => exact Or.inl rfl
  | tail _ hadj _ => exact Or.inr ⟨hadj.2.1, hadj.2.2.2.2⟩

/-- Once the seed is labeled and no unlabeled point borders the labeled
set, the whole connected component of the seed carries the label. -/
theorem conn_all_labeled (n : Nat) (nbrs : Nat → List Nat)
    (isCore : Nat → Bool) (seed : Nat) (lab : Int) (L0 L2 : List Int)
    (hcomp0 : ∀ j, j < n → CoreConn n nbrs isCore seed j → L0.getD j 0 = -1)
    (hseedlab : L2.getD seed 0 = lab)
    (hfront : ∀ p w, p < n → L2.getD p 0 = lab → w ∈ nbrs p →
      L2.getD w 0 ≠ -1)
    (hI4 : ∀ j, j < n → L2.getD j 0 = L0.getD j 0 ∨ L2.getD j 0 = lab) :
    ∀ j, CoreConn n nbrs isCore seed j → L2.getD j 0 = lab := by
  intro j hconn
  induction hconn with
  | refl => exact hseedlab
  | @tail b c hseedb hadj ih =>
    have hb : b < n := hadj.1
    have hc : c < n := hadj.2.1
    have hcnbr : c ∈ nbrs b := hadj.2.2.1
    have hbl : L2.getD b 0 = lab := ih
    have hcnz : L2.getD c 0 ≠ -1 := hfront b c hb hbl hcnbr
    rcases hI4 c hc with h4 | h4
    · have hconnc : CoreConn n nbrs isCore seed c :=
        Relation.ReflTransGen.tail hseedb hadj
      rw [h4, hcomp0 c hc hconnc] at hcnz
      exact absurd rfl hcnz
    · exact h4

/-- Main invariant lemma for one `dbscan_inner` cluster expansion: starting
from an unlabeled core seed whose connected component is entirely
unlabeled, the expansion labels exactly that component with `lab` and
leaves everything else untouched. -/
theorem expandGo_spec (n : Nat) (nbrs : Nat → List Nat) (isCore : Nat → Bool)
    (hN : ∀ i, ∀ v ∈ nbrs i, v < n)
    (hCore2 : ∀ i j, i < n → j ∈ nbrs i → j ≠ i →
      isCore i = true ∧ isCore j = true)
    (lab : Int) (hlab : lab ≠ -1) (seed : Nat)
    (L0 : List Int)
    (hcomp0 : ∀ j, j < n → CoreConn n nbrs isCore seed j → L0.getD j 0 = -1) :
    ∀ (k : Nat) (labels : List Int) (i : Nat) (stack : List Nat),
      labels.length = n →
      countNeg labels ≤ k →
      i < n → isCore i = true → CoreConn n nbrs isCore seed i →
      labels.getD i 0 = -1 →
      (∀ v ∈ stack, v < n ∧ isCore v = true ∧ CoreConn n nbrs isCore seed v) →
      (∀ j, j < n →
        labels.getD j 0 = L0.getD j 0 ∨
          (labels.getD j 0 = lab ∧ CoreConn n nbrs isCore seed j)) →
      (∀ p w, p < n → labels.getD p 0 = lab → w ∈ nbrs p →
        labels.getD w 0 = -1 → w ∈ stack ∨ w = i) →
      (labels.getD seed 0 = lab ∨ i = seed) →
      ∀ j, j < n →
        (CoreConn n nbrs isCore seed j →
          (expandGo nbrs isCore lab k labels i stack).getD j 0 = lab) ∧
        (¬ CoreConn n nbrs isCore seed j →
          (expandGo nbrs isCore lab k labels i stack).getD j 0 = L0.getD j 0) := by
  intro k
  induction k with
  | zero =>
    intro labels i stack _ hcnt _ _ _ hiu _ _ _ _
    exact absurd hcnt (by have := countNeg_pos hiu; omega)
  | succ k ih =>
    intro labels i stack hlen hcnt hin hicore hiconn hiu hstack hI4 hI5 hI6
    rw [expandGo, if_pos hiu]
    simp only [if_pos hicore]
    set L2 := labels.set i lab with hL2def
    set pushes := (nbrs i).filter (fun v => L2.getD v 0 == -1) with hpushdef
    set stack2 := pushes.reverse ++ stack with hstack2def
    have hL2len : L2.length = n := by rw [hL2def, List.length_set, hlen]
    have hL2i : L2.getD i 0 = lab := getD_set_self (by omega)
    have hL2ne : ∀ j, j ≠ i → L2.getD j 0 = labels.getD j 0 := by
      intro j hj
      exact getD_set_ne (fun h => hj h.symm)
    -- every element of the new stack is a core point of the component
    have hstack2 : ∀ v ∈ stack2, v < n ∧ isCore v = true ∧
        CoreConn n nbrs isCore seed v := by
      intro v hv
      rcases List.mem_append.mp hv with hv1 | hv1
      · have hv2 : v ∈ pushes := List.mem_reverse.mp hv1
        rw [hpushdef] at hv2
        have hv3 := List.mem_filter.mp hv2
        have hvnbr : v ∈ nbrs i := hv3.1
        have hvu : L2.getD v 0 = -1 := by
          have := hv3.2
          exact beq_iff_eq.mp this
        have hvne : v ≠ i := by
          intro h
          rw [h, hL2i] at hvu
          exact hlab hvu
        have hvn : v < n := hN i v hvnbr
        have hvcore : isCore v = true := (hCore2 i v hin hvnbr hvne).2
        have hadj : CoreAdj n nbrs isCore i v := ⟨hin, hvn, hvnbr, hicore, hvcore⟩
        exact ⟨hvn, hvcore, Relation.ReflTransGen.tail hiconn hadj⟩
      · exact hstack v hv1
    -- the new labeled map only differs on the component
    have hI4' : ∀ j, j < n →
        L2.getD j 0 = L0.getD j 0 ∨
          (L2.getD j 0 = lab ∧ CoreConn n nbrs isCore seed j) := by
      intro j hj
      by_cases hji : j = i
      · subst hji
        exact Or.inr ⟨hL2i, hiconn⟩
      · rw [hL2ne j hji]
        exact hI4 j hj
    -- every unlabeled neighbor of a labeled point sits on the new stack
    have hI5' : ∀ p w, p < n → L2.getD p 0 = lab → w ∈ nbrs p →
        L2.getD w 0 = -1 → w ∈ stack2 := by
      intro p w hp hpl hwnbr hwu
      have hwne : w ≠ i := by
        intro h
        rw [h, hL2i] at hwu
        exact hlab hwu
      by_cases hpi : p = i
      · subst hpi
        have hwpush : w ∈ pushes := by
          rw [hpushdef]
          exact List.mem_filter.mpr ⟨hwnbr, beq_iff_eq.mpr hwu⟩
        exact List.mem_append.mpr (Or.inl (List.mem_reverse.mpr hwpush))
      · have hplold : labels.getD p 0 = lab := by
          rw [← hL2ne p hpi]
          exact hpl
        have hwuold : labels.getD w 0 = -1 := by
          rw [← hL2ne w hwne]
          exact hwu
        rcases hI5 p w hp hplold hwnbr hwuold with h | h
        · exact List.mem_append.mpr (Or.inr h)
        · exact absurd h hwne
    have hseed2 : L2.getD seed 0 = lab := by
      rcases hI6 with h | h
      · by_cases hsi : seed = i
        · subst hsi
          exact hL2i
        · rw [hL2ne seed hsi]
          exact h
      · subst h
        exact hL2i
    rcases hpop : popNext L2 stack2 with _ | ⟨j2, rest⟩
    · -- stack exhausted: the whole component is labeled
      simp only []
      have hallst : ∀ v ∈ stack2, L2.getD v 0 ≠ -1 := popNext_eq_none.mp hpop
      have hfront : ∀ p w, p < n → L2.getD p 0 = lab → w ∈ nbrs p →
          L2.getD w 0 ≠ -1 := by
        intro p w hp hpl hwnbr hwu
        exact hallst w (hI5' p w hp hpl hwnbr hwu) hwu
      intro j hj
      constructor
      · intro hconn
        exact conn_all_labeled n nbrs isCore seed lab L0 L2 hcomp0 hseed2 hfront
          (fun j' hj' => (hI4' j' hj').imp id And.left) j hconn
      · intro hnconn
        rcases hI4' j hj with h | h
        · exact h
        · exact absurd h.2 hnconn
    · -- recurse on the next unlabeled stack entry
      simp only []
      obtain ⟨hj2u, hj2mem, hrest, hstay⟩ := popNext_some hpop
      obtain ⟨hj2n, hj2core, hj2conn⟩ := hstack2 j2 hj2mem
      have hcnt2 : countNeg L2 ≤ k := by
        have := countNeg_set (l := labels) (i := i) (a := lab) hiu hlab
        rw [← hL2def] at this
        omega
      refine ih L2 j2 rest hL2len hcnt2 hj2n hj2core hj2conn hj2u ?_ hI4' ?_ ?_
      · intro v hv
        exact hstack2 v (hrest v hv)
      · intro p w hp hpl hwnbr hwu
        exact (hstay w (hI5' p w hp hpl hwnbr hwu) hwu).symm
      · exact Or.inl hseed2

theorem dbscanOuter_spec
    (n : Nat) (nbrs : Nat → List Nat) (isCore : Nat → Bool)
    (hN : ∀ i, ∀ v ∈ nbrs i, v < n)
    (hSym : ∀ i j, i < n → j < n → j ∈ nbrs i → i ∈ nbrs j)
    (hCore2 : ∀ i j, i < n → j ∈ nbrs i → j ≠ i →
      isCore i = true ∧ isCore j = true) :
    ∀ (idxs : List Nat) (labelNum : Nat) (labels : List Int),
      LoopInv n nbrs isCore labelNum labels →
      (∀ i ∈ idxs, i < n) →
      (∃ labelNum2, LoopInv n nbrs isCore labelNum2
        (dbscanOuter nbrs isCore idxs labelNum labels)) ∧
      (∀ i ∈ idxs, isCore i = true →
        (dbscanOuter nbrs isCore idxs labelNum labels).getD i 0 ≠ -1) ∧
      (∀ j, j < n → labels.getD j 0 ≠ -1 →
        (dbscanOuter nbrs isCore idxs labelNum labels).getD j 0 =
          labels.getD j 0) := by
  intro idxs
  induction idxs with
  | nil =>
    intro labelNum labels hinv _
    refine ⟨⟨labelNum, hinv⟩, ?_, ?_⟩
    · intro i hi
      simp at hi
    · intro j _ _
      rfl
  | cons i rest ih =>
    intro labelNum labels hinv hidx
    obtain ⟨hlen, hO2, hO4, hO5, hO6⟩ := hinv
    have hin : i < n := hidx i (List.mem_cons_self _ _)
    rw [dbscanOuter]
    by_cases hcond : labels.getD i 0 = -1 ∧ isCore i = true
    · rw [if_pos hcond]
      obtain ⟨hiu, hicore⟩ := hcond
      have hlab : ((labelNum : Int)) ≠ -1 := by omega
      -- the connected component of the seed is entirely unlabeled
      have hcomp0 : ∀ j, j < n → CoreConn n nbrs isCore i j →
          labels.getD j 0 = -1 := by
        intro j hj hconn
        by_contra hjl
        have hconn2 := coreConn_symm n nbrs isCore hSym hconn
        have := hO4 j i hj hin hjl hconn2
        rw [this] at hiu
        exact hjl hiu
      have hspec := expandGo_spec n nbrs isCore hN hCore2 (labelNum : Int)
        hlab i labels hcomp0 labels.length labels i []
        hlen (countNeg_le_length labels) hin hicore
        Relation.ReflTransGen.refl hiu
        (by intro v hv; simp at hv)
        (by intro j hj; exact Or.inl rfl)
        (by
          intro p w hp hpl _ _
          rcases hO6 p hp with h | ⟨m, hm, hml⟩
          · rw [h] at hpl
            exact absurd hpl.symm hlab
          · rw [hml] at hpl
            have : m = labelNum := by omega
            omega)
        (Or.inr rfl)
      set L1 := expandGo nbrs isCore (labelNum : Int) labels.length labels i []
        with hL1def
      have hL1len : L1.length = n := by
        rw [hL1def, expandGo_length, hlen]
      -- facts about the expanded labeling
      have hconnlab : ∀ j, j < n → CoreConn n nbrs isCore i j →
          L1.getD j 0 = (labelNum : Int) := fun j hj => (hspec j hj).1
      have hkeep : ∀ j, j < n → ¬ CoreConn n nbrs isCore i j →
          L1.getD j 0 = labels.getD j 0 := fun j hj => (hspec j hj).2
      have hpres : ∀ j, j < n → labels.getD j 0 ≠ -1 →
          L1.getD j 0 = labels.getD j 0 := by
        intro j hj hjl
        refine hkeep j hj ?_
        intro hconn
        exact hjl (hcomp0 j hj hconn)
      have hO2' : ∀ j, j < n → L1.getD j 0 ≠ -1 → isCore j = true := by
        intro j hj hjl
        by_cases hconn : CoreConn n nbrs isCore i j
        · rcases coreConn_bounds n nbrs isCore hconn with rfl | h
          · exact hicore
          · exact h.2
        · rw [hkeep j hj hconn] at hjl
          exact hO2 j hj hjl
      have hO4' : ∀ j k, j < n → k < n → L1.getD j 0 ≠ -1 →
          CoreConn n nbrs isCore j k → L1.getD k 0 = L1.getD j 0 := by
        intro j k hj hk hjl hjk
        by_cases hconn : CoreConn n nbrs isCore i j
        · have hconnk : CoreConn n nbrs isCore i k :=
            Relation.ReflTransGen.trans hconn hjk
          rw [hconnlab j hj hconn, hconnlab k hk hconnk]
        · have hconnk : ¬ CoreConn n nbrs isCore i k := by
            intro hik
            exact hconn (Relation.ReflTransGen.trans hik
              (coreConn_symm n nbrs isCore hSym hjk))
          rw [hkeep j hj hconn] at hjl ⊢
          rw [hkeep k hk hconnk]
          exact hO4 j k hj hk hjl hjk
      have hO5' : ∀ j k, j < n → k < n → L1.getD j 0 ≠ -1 →
          L1.getD j 0 = L1.getD k 0 → CoreConn n nbrs isCore j k := by
        intro j k hj hk hjl heq
        have hfreshk : ∀ m, m < n → ¬ CoreConn n nbrs isCore i m →
            L1.getD m 0 ≠ (labelNum : Int) := by
          intro m hm hconn hl
          rw [hkeep m hm hconn] at hl
          rcases hO6 m hm with h | ⟨m2, hm2, hml⟩
          · rw [h] at hl
            exact hlab hl.symm
          · rw [hml] at hl
            have : m2 = labelNum := by omega
            omega
        by_cases hconnj : CoreConn n nbrs isCore i j <;>
          by_cases hconnk : CoreConn n nbrs isCore i k
        · exact Relation.ReflTransGen.trans
            (coreConn_symm n nbrs isCore hSym hconnj) hconnk
        · rw [hconnlab j hj hconnj] at heq
          exact absurd heq.symm (hfreshk k hk hconnk)
        · rw [hconnlab k hk hconnk] at heq
          exact absurd heq (hfreshk j hj hconnj)
        · rw [hkeep j hj hconnj] at hjl heq
          rw [hkeep k hk hconnk] at heq
          exact hO5 j k hj hk hjl heq
      have hO6' : ∀ j, j < n → L1.getD j 0 = -1 ∨
          ∃ m : Nat, m < labelNum + 1 ∧ L1.getD j 0 = (m : Int) := by
        intro j hj
        by_cases hconn : CoreConn n nbrs isCore i j
        · exact Or.inr ⟨labelNum, by omega, hconnlab j hj hconn⟩
        · rw [hkeep j hj hconn]
          rcases hO6 j hj with h | ⟨m, hm, hml⟩
          · exact Or.inl h
          · exact Or.inr ⟨m, by omega, hml⟩
      have hrest := ih (labelNum + 1) L1
        ⟨hL1len, hO2', hO4', hO5', hO6'⟩
        (fun v hv => hidx v (List.mem_cons_of_mem _ hv))
      refine ⟨hrest.1, ?_, ?_⟩
      · intro v hv hvcore
        rcases List.mem_cons.mp hv with rfl | hv2
        · have hL1v : L1.getD v 0 = (labelNum : Int) :=
            hconnlab v hin Relation.ReflTransGen.refl
          have : L1.getD v 0 ≠ -1 := by
            rw [hL1v]
            exact hlab
          rw [hrest.2.2 v hin this, hL1v]
          exact hlab
        · exact hrest.2.1 v hv2 hvcore
      · intro j hj hjl
        have h1 := hpres j hj hjl
        have h2 : L1.getD j 0 ≠ -1 := by
          rw [h1]
          exact hjl
        rw [hrest.2.2 j hj h2, h1]
    · rw [if_neg hcond]
      have hrest := ih labelNum labels ⟨hlen, hO2, hO4, hO5, hO6⟩
        (fun v hv => hidx v (List.mem_cons_of_mem _ hv))
      refine ⟨hrest.1, ?_, hrest.2.2⟩
      intro v hv hvcore
      rcases List.mem_cons.mp hv with rfl | hv2
      · have hvl : labels.getD v 0 ≠ -1 := by
          intro h
          exact hcond ⟨h, hvcore⟩
        rw [hrest.2.2 v hin hvl]
        exact hvl
      · exact hrest.2.1 v hv2 hvcore

/-- Final characterization of `dbscan_inner`'s output on an abstract
symmetric neighbor structure in which every neighbor of a core point is
core (that is the `min_samples = 2` situation): a point is noise iff it is
not core, and two core points share a label iff they are connected through
a chain of core neighbors. -/
theorem dbscanOuter_characterization
    (n : Nat) (nbrs : Nat → List Nat) (isCore : Nat → Bool)
    (hN : ∀ i, ∀ v ∈ nbrs i, v < n)
    (hSym : ∀ i j, i < n → j < n → j ∈ nbrs i → i ∈ nbrs j)
    (hCore2 : ∀ i j, i < n → j ∈ nbrs i → j ≠ i →
      isCore i = true ∧ isCore j = true) :
    (∀ j, j < n →
      ((dbscanOuter nbrs isCore (List.range n) 0
          (List.replicate n (-1))).getD j 0 = -1 ↔ isCore j = false)) ∧
    (∀ j k, j < n → k < n → isCore j = true → isCore k = true →
      ((dbscanOuter nbrs isCore (List.range n) 0
          (List.replicate n (-1))).getD j 0 =
        (dbscanOuter nbrs isCore (List.range n) 0
          (List.replicate n (-1))).getD k 0 ↔
        CoreConn n nbrs isCore j k)) := by
  have hinit : LoopInv n nbrs isCore 0 (List.replicate n (-1)) := by
    refine ⟨List.length_replicate _ _, ?_, ?_, ?_, ?_⟩
    · intro j hj hjl
      exact absurd (getD_replicate_neg hj) hjl
    · intro j k hj _ hjl _
      exact absurd (getD_replicate_neg hj) hjl
    · intro j k hj _ hjl _
      exact absurd (getD_replicate_neg hj) hjl
    · intro j hj
      exact Or.inl (getD_replicate_neg hj)
  have hspec := dbscanOuter_spec n nbrs isCore hN hSym hCore2
    (List.range n) 0 (List.replicate n (-1)) hinit
    (fun i hi => List.mem_range.mp hi)
  obtain ⟨⟨labelNum2, _, hO2, hO4, hO5, _⟩, hO3, _⟩ := hspec
  constructor
  · intro j hj
    constructor
    · intro hjl
      by_contra hcore
      rw [Bool.not_eq_false] at hcore
      exact hO3 j (List.mem_range.mpr hj) hcore hjl
    · intro hcore
      by_contra hjl
      rw [hO2 j hj hjl] at hcore
      exact Bool.true_eq_false.mp hcore
  · intro j k hj hk hjcore hkcore
    have hjl : (dbscanOuter nbrs isCore (List.range n) 0
        (List.replicate n (-1))).getD j 0 ≠ -1 :=
      hO3 j (List.mem_range.mpr hj) hjcore
    constructor
    · intro heq
      exact hO5 j k hj hk hjl heq
    · intro hconn
      exact (hO4 j k hj hk hjl hconn).symm

/-! ## Instance facts: the Hamming neighborhood structure -/

theorem hamming_eq_div (u v : List Bool) :
    hamming u v = (countDiff u v : ℚ) / (u.length : ℚ) := by
  rw [hamming, Rat.mkRat_eq_div]
  norm_num

theorem countDiff_self (v : List Bool) : countDiff v v = 0 := by
  induction v with
  | nil => rfl
  | cons a as ih =>
    simpa [countDiff, List.zip_cons_cons] using ih

theorem countDiff_comm (u v : List Bool) : countDiff u v = countDiff v u := by
  induction u generalizing v with
  | nil =>
    cases v <;> rfl
  | cons a as ih =>
    cases v with
    | nil => rfl
    | cons b bs =>
      have hab : (a != b) = (b != a) := by
        cases a <;> cases b <;> rfl
      simp only [countDiff, List.zip_cons_cons, List.filter_cons]
      rw [hab]
      by_cases h : (b != a) = true
      · simp only [h, if_pos]
        simpa [countDiff] using ih bs
      · simp only [h]
        simpa [countDiff, h] using ih bs

theorem hamming_self (v : List Bool) : hamming v v = 0 := by
  rw [hamming_eq_div, countDiff_self]
  simp

theorem hamming_comm {u v : List Bool} (h : u.length = v.length) :
    hamming u v = hamming v u := by
  rw [hamming, hamming, countDiff_comm, h]

theorem mem_nbrsOf {X : List (List Bool)} {eps : ℚ} {i j : Nat} :
    j ∈ nbrsOf X eps i ↔
      j < X.length ∧ hamming (X.getD i []) (X.getD j []) ≤ eps := by
  simp [nbrsOf, List.mem_filter, List.mem_range]

theorem nbrsOf_nodup (X : List (List Bool)) (eps : ℚ) (i : Nat) :
    (nbrsOf X eps i).Nodup :=
  List.Nodup.filter _ (List.nodup_range _)

theorem self_mem_nbrsOf {X : List (List Bool)} {eps : ℚ} {i : Nat}
    (heps : 0 ≤ eps) (hi : i < X.length) : i ∈ nbrsOf X eps i :=
  mem_nbrsOf.mpr ⟨hi, by rw [hamming_self]; exact heps⟩

theorem nbrsOf_lt {X : List (List Bool)} {eps : ℚ} :
    ∀ i, ∀ v ∈ nbrsOf X eps i, v < X.length :=
  fun _ _ hv => (mem_nbrsOf.mp hv).1

theorem getD_mem_of_lt {X : List (List Bool)} {i : Nat} (h : i < X.length) :
    X.getD i [] ∈ X := by
  induction X generalizing i with
  | nil => simp at h
  | cons x xs ih =>
    cases i with
    | zero => simp
    | succ m =>
      rw [List.getD_cons_succ]
      exact List.mem_cons_of_mem _ (ih (by simpa using h))

theorem nbrsOf_symm {X : List (List Bool)} {eps : ℚ} (hX : SameLen X) :
    ∀ i j, i < X.length → j < X.length →
      j ∈ nbrsOf X eps i → i ∈ nbrsOf X eps j := by
  intro i j hi hj hmem
  have hlen : (X.getD i []).length = (X.getD j []).length :=
    hX _ (getD_mem_of_lt hi) _ (getD_mem_of_lt hj)
  have := (mem_nbrsOf.mp hmem).2
  exact mem_nbrsOf.mpr ⟨hi, by rwa [hamming_comm hlen.symm]⟩

theorem two_le_length_of_nodup {l : List Nat} {a b : Nat}
    (hab : a ≠ b) (ha : a ∈ l) (hb : b ∈ l) (hl : l.Nodup) :
    2 ≤ l.length := by
  have h1 : ({a, b} : Finset Nat) ⊆ l.toFinset := by
    intro x hx
    rcases Finset.mem_insert.mp hx with rfl | hx
    · exact List.mem_toFinset.mpr ha
    · rw [Finset.mem_singleton] at hx
      subst hx
      exact List.mem_toFinset.mpr hb
  have h2 := Finset.card_le_card h1
  rwa [Finset.card_pair hab, List.toFinset_card_of_nodup hl] at h2

/-- With `min_samples = 2`, any point with a neighbor other than itself is
core, and so is that neighbor; hence there are no border points. -/
theorem isCore2_of_nbr {X : List (List Bool)} {eps : ℚ}
    (heps : 0 ≤ eps) (hX : SameLen X) :
    ∀ i j, i < X.length → j ∈ nbrsOf X eps i → j ≠ i →
      isCoreOf X eps 2 i = true ∧ isCoreOf X eps 2 j = true := by
  intro i j hi hmem hne
  have hj : j < X.length := (mem_nbrsOf.mp hmem).1
  have hself_i : i ∈ nbrsOf X eps i := self_mem_nbrsOf heps hi
  have hself_j : j ∈ nbrsOf X eps j := self_mem_nbrsOf heps hj
  have hij : i ∈ nbrsOf X eps j := nbrsOf_symm hX i j hi hj hmem
  constructor
  · exact decide_eq_true_eq.mpr
      (two_le_length_of_nodup hne.symm hself_i hmem (nbrsOf_nodup X eps i))
  · exact decide_eq_true_eq.mpr
      (two_le_length_of_nodup hne hself_j hij (nbrsOf_nodup X eps j))

/-- Noise characterization of the configured clustering: a point is labeled
`-1` iff it is not core. -/
theorem dbscanLabels_noise_iff {X : List (List Bool)} {eps : ℚ}
    (heps : 0 ≤ eps) (hX : SameLen X) {j : Nat} (hj : j < X.length) :
    (dbscanLabels X eps 2).getD j 0 = -1 ↔ isCoreOf X eps 2 j = false := by
  have h := dbscanOuter_characterization X.length (nbrsOf X eps)
    (isCoreOf X eps 2) nbrsOf_lt (nbrsOf_symm hX) (isCore2_of_nbr heps hX)
  exact h.1 j hj

/-- Cluster characterization of the configured clustering: two core points
share a label iff they are connected through a chain of core points. -/
theorem dbscanLabels_conn_iff {X : List (List Bool)} {eps : ℚ}
    (heps : 0 ≤ eps) (hX : SameLen X) {j k : Nat}
    (hj : j < X.length) (hk : k < X.length)
    (hjc : isCoreOf X eps 2 j = true) (hkc : isCoreOf X eps 2 k = true) :
    (dbscanLabels X eps 2).getD j 0 = (dbscanLabels X eps 2).getD k 0 ↔
      CoreConn X.length (nbrsOf X eps) (isCoreOf X eps 2) j k := by
  have h := dbscanOuter_characterization X.length (nbrsOf X eps)
    (isCoreOf X eps 2) nbrsOf_lt (nbrsOf_symm hX) (isCore2_of_nbr heps hX)
  exact h.2 j k hj hk hjc hkc

/-! ## Grouping lemmas: `groups.setdefault(label, []).append(filename)` -/

theorem addToGroup_flatten_perm (acc : List (Int × List String)) (l : Int)
    (f : String) :
    ((addToGroup acc l f).map (·.2)).flatten.Perm
      ((acc.map (·.2)).flatten ++ [f]) := by
  induction acc with
  | nil => simp [addToGroup]
  | cons e rest ih =>
    obtain ⟨l', fs⟩ := e
    by_cases h : l' = l
    · simp only [addToGroup, if_pos h, List.map_cons, List.flatten_cons]
      rw [List.append_assoc, List.append_assoc]
      exact List.Perm.append_left fs List.perm_append_comm
    · simp only [addToGroup, if_neg h, List.map_cons, List.flatten_cons]
      rw [List.append_assoc]
      exact List.Perm.append_left fs ih

theorem groupFold_flatten_perm :
    ∀ (ps : List (Int × String)) (acc : List (Int × List String)),
      ((groupFold acc ps).map (·.2)).flatten.Perm
        ((acc.map (·.2)).flatten ++ ps.map (·.2)) := by
  intro ps
  induction ps with
  | nil =>
    intro acc
    simp [groupFold]
  | cons p rest ih =>
    intro acc
    rw [groupFold]
    refine (ih _).trans ?_
    have h2 := List.Perm.append_right (rest.map (·.2))
      (addToGroup_flatten_perm acc p.1 p.2)
    have h3 : ((acc.map (·.2)).flatten ++ [p.2]) ++ rest.map (·.2)
        = (acc.map (·.2)).flatten ++ ((p :: rest).map (·.2)) := by
      rw [List.append_assoc]
      rfl
    rw [← h3]
    exact h2

theorem groupByLabel_flatten_perm (ps : List (Int × String)) :
    ((groupByLabel ps).map (·.2)).flatten.Perm (ps.map (·.2)) := by
  have h := groupFold_flatten_perm ps []
  simpa [groupByLabel] using h

theorem countP_le_count_flatten (x : String) (gs : List (Int × List String)) :
    gs.countP (fun g => decide (x ∈ g.2)) ≤ ((gs.map (·.2)).flatten).count x := by
  induction gs with
  | nil => simp
  | cons g rest ih =>
    rw [List.countP_cons, List.map_cons, List.flatten_cons, List.count_append]
    by_cases h : x ∈ g.2
    · have h1 : 0 < g.2.count x := List.count_pos_iff.mpr h
      have h2 : (decide (x ∈ g.2)) = true := decide_eq_true h
      rw [h2, if_pos rfl]
      omega
    · have h2 : (decide (x ∈ g.2)) = false := decide_eq_false h
      rw [h2, if_neg (by simp)]
      omega

theorem one_le_countP_of_mem_flatten {x : String} {gs : List (Int × List String)}
    (h : x ∈ (gs.map (·.2)).flatten) :
    1 ≤ gs.countP (fun g => decide (x ∈ g.2)) := by
  induction gs with
  | nil => simp at h
  | cons g rest ih =>
    simp only [List.map_cons, List.flatten_cons, List.mem_append] at h
    rw [List.countP_cons]
    rcases h with h | h
    · have h2 : (decide (x ∈ g.2)) = true := decide_eq_true h
      rw [h2, if_pos rfl]
      omega
    · have := ih h
      omega

theorem clusterGroups_flatten_perm (ps : List (String × List Bool)) :
    ((clusterGroups ps).map (·.2)).flatten.Perm (ps.map (·.1)) := by
  unfold clusterGroups
  refine (groupByLabel_flatten_perm _).trans ?_
  have hlen : (ps.map (·.1)).length ≤
      (dbscanLabels (ps.map (·.2)) (mkRat 1 4) 2).length := by
    rw [dbscanLabels_length, List.length_map, List.length_map]
  rw [List.map_snd_zip _ _ hlen]

/-- C2: the grouping returned by the Similarity Clusterer is a partition of
the input: the concatenation of all groups (noise included) is a permutation
of the input document identifiers, and — the identifiers being distinct —
each identifier lies in exactly one group. -/
theorem claim_C2 (ps : List (String × List Bool)) :
    ((clusterGroups ps).map (·.2)).flatten.Perm (ps.map (·.1)) ∧
      ((ps.map (·.1)).Nodup → ∀ x ∈ ps.map (·.1),
        (clusterGroups ps).countP (fun g => decide (x ∈ g.2)) = 1) := by
  have hperm := clusterGroups_flatten_perm ps
  refine ⟨hperm, ?_⟩
  intro hnd x hx
  have hcount : (ps.map (·.1)).count x = 1 :=
    List.count_eq_one_of_mem hnd hx
  have hflat : ((clusterGroups ps).map (·.2)).flatten.count x = 1 := by
    rw [hperm.count_eq]
    exact hcount
  have h1 := countP_le_count_flatten x (clusterGroups ps)
  have hxflat : x ∈ ((clusterGroups ps).map (·.2)).flatten :=
    hperm.mem_iff.mpr hx
  have h2 := one_le_countP_of_mem_flatten hxflat
  omega

/-- Witness for C2 at `psW`. -/
theorem claim_C2_witness :
    (psW.map (·.1)).Nodup ∧
      (clusterGroups psW).countP (fun g => decide ("a.html" ∈ g.2)) = 1 :=
  ⟨by decide, (claim_C2 psW).2 (by decide) "a.html" (by decide)⟩

/-- The outer scan does nothing when no point is core. -/
theorem dbscanOuter_no_core {nbrs : Nat → List Nat} {isCore : Nat → Bool}
    (h : ∀ i, isCore i = false) :
    ∀ (idxs : List Nat) (labelNum : Nat) (labels : List Int),
      dbscanOuter nbrs isCore idxs labelNum labels = labels := by
  intro idxs
  induction idxs with
  | nil => intro labelNum labels; rfl
  | cons i rest ih =>
    intro labelNum labels
    rw [dbscanOuter, if_neg]
    · exact ih _ _
    · intro hc
      rw [h i] at hc
      exact absurd hc.2 (by decide)

/-- C4: with fewer input documents than `min_samples`, every document is
labeled noise no matter how similar the fingerprints are (in the program's
configuration `min_samples = 2`, so any singleton input is all noise). -/
theorem claim_C4 (X : List (List Bool)) (eps : ℚ) (minPts : Nat)
    (h : X.length < minPts) :
    dbscanLabels X eps minPts = List.replicate X.length (-1) := by
  have hcore : ∀ i, isCoreOf X eps minPts i = false := by
    intro i
    have hle : (nbrsOf X eps i).length ≤ X.length := by
      have h2 : (nbrsOf X eps i).length ≤ (List.range X.length).length :=
        List.length_filter_le _ _
      simpa using h2
    unfold isCoreOf
    rw [decide_eq_false_iff_not]
    omega
  unfold dbscanLabels
  exact dbscanOuter_no_core hcore _ _ _

/-- Witness for C4: one document (with whatever fingerprint) is noise. -/
theorem claim_C4_witness :
    (1 : Nat) < 2 ∧ dbscanLabels [[true]] (mkRat 1 4) 2 =
      List.replicate 1 (-1) :=
  ⟨by decide, claim_C4 [[true]] (mkRat 1 4) 2 (by decide)⟩

theorem screenshotMap_nil_of_html_nil {e : TierEnv} (h : htmlFiles e = []) :
    screenshotMap e = [] := by
  unfold screenshotMap renderResults tasksOf
  rw [h]
  rfl

/-- C7: a tier left with zero usable documents after any stage — no
discovered documents, no successful render, or no valid hash — returns the
empty grouping (the Python function returns `[]` on each of those paths and
raises on none of them; the embedding is a total function). -/
theorem claim_C7 (e : TierEnv)
    (h : htmlFiles e = [] ∨ screenshotMap e = [] ∨ hashedOf e = []) :
    processTierGroups e = [] := by
  rcases h with h | h | h
  · unfold processTierGroups
    rw [if_pos (screenshotMap_nil_of_html_nil h)]
  · unfold processTierGroups
    rw [if_pos h]
  · unfold processTierGroups
    by_cases h2 : screenshotMap e = []
    · rw [if_pos h2]
    · rw [if_neg h2, if_pos h]

/-- Witness for C7 at a tier whose directory holds no HTML file. -/
theorem claim_C7_witness :
    (htmlFiles envW7 = [] ∨ screenshotMap envW7 = [] ∨ hashedOf envW7 = []) ∧
      processTierGroups envW7 = [] :=
  ⟨by decide, claim_C7 envW7 (by decide)⟩

/-! ## Sorting lemmas (Python's `sorted` on document names) -/

theorem strLeB_total : ∀ (a b : List Char),
    strLeB a b = true ∨ strLeB b a = true := by
  intro a
  induction a with
  | nil => intro b; exact Or.inl rfl
  | cons x xs ih =>
    intro b
    cases b with
    | nil => exact Or.inr rfl
    | cons y ys =>
      rcases Nat.lt_trichotomy x.toNat y.toNat with h | h | h
      · refine Or.inl ?_
        rw [strLeB, if_pos h]
      · rcases ih ys with h2 | h2
        · refine Or.inl ?_
          rw [strLeB, if_neg (by omega), if_neg (by omega)]
          exact h2
        · refine Or.inr ?_
          rw [strLeB, if_neg (by omega), if_neg (by omega)]
          exact h2
      · refine Or.inr ?_
        rw [strLeB, if_pos h]

theorem strLeB_trans : ∀ (a b c : List Char),
    strLeB a b = true → strLeB b c = true → strLeB a c = true := by
  intro a
  induction a with
  | nil => intro b c _ _; rfl
  | cons x xs ih =>
    intro b c hab hbc
    cases b with
    | nil => simp [strLeB] at hab
    | cons y ys =>
      cases c with
      | nil => simp [strLeB] at hbc
      | cons z zs =>
        rw [strLeB] at hab hbc ⊢
        rcases Nat.lt_trichotomy x.toNat y.toNat with h1 | h1 | h1 <;>
          rcases Nat.lt_trichotomy y.toNat z.toNat with h2 | h2 | h2
        all_goals
          first
          | rw [if_pos (show x.toNat < z.toNat by omega)]
          | (rw [if_neg (show ¬ y.toNat < z.toNat by omega),
              if_pos (show z.toNat < y.toNat by omega)] at hbc
             exact absurd hbc (by decide))
          | (rw [if_neg (show ¬ x.toNat < y.toNat by omega),
              if_pos (show y.toNat < x.toNat by omega)] at hab
             exact absurd hab (by decide))
          | (rw [if_neg (show ¬ x.toNat < y.toNat by omega),
              if_neg (show ¬ y.toNat < x.toNat by omega)] at hab
             rw [if_neg (show ¬ y.toNat < z.toNat by omega),
              if_neg (show ¬ z.toNat < y.toNat by omega)] at hbc
             rw [if_neg (show ¬ x.toNat < z.toNat by omega),
              if_neg (show ¬ z.toNat < x.toNat by omega)]
             exact ih ys zs hab hbc)

theorem strLe_total (a b : String) : strLe a b = true ∨ strLe b a = true :=
  strLeB_total a.data b.data

theorem strLe_trans {a b c : String} (h1 : strLe a b = true)
    (h2 : strLe b c = true) : strLe a c = true :=
  strLeB_trans a.data b.data c.data h1 h2

theorem insertSorted_perm (f : String) (l : List String) :
    (insertSorted f l).Perm (f :: l) := by
  induction l with
  | nil => exact List.Perm.refl _
  | cons g rest ih =>
    rw [insertSorted]
    by_cases h : strLe f g = true
    · rw [if_pos h]
    · rw [if_neg h]
      exact (List.Perm.cons g ih).trans (List.Perm.swap f g rest)

theorem sortNames_perm (l : List String) : (sortNames l).Perm l := by
  induction l with
  | nil => exact List.Perm.refl _
  | cons f rest ih =>
    rw [sortNames]
    exact (insertSorted_perm f (sortNames rest)).trans (List.Perm.cons f ih)

theorem insertSorted_pairwise (f : String) (l : List String)
    (hl : List.Pairwise (fun a b => strLe a b = true) l) :
    List.Pairwise (fun a b => strLe a b = true) (insertSorted f l) := by
  induction l with
  | nil => simp [insertSorted]
  | cons g rest ih =>
    rw [insertSorted]
    rcases List.pairwise_cons.mp hl with ⟨hg, hrest⟩
    by_cases h : strLe f g = true
    · rw [if_pos h]
      refine List.pairwise_cons.mpr ⟨?_, hl⟩
      intro b hb
      rcases List.mem_cons.mp hb with rfl | hb2
      · exact h
      · exact strLe_trans h (hg b hb2)
    · rw [if_neg h]
      refine List.pairwise_cons.mpr ⟨?_, ih hrest⟩
      intro b hb
      have hb2 : b ∈ f :: rest := (insertSorted_perm f rest).mem_iff.mp hb
      rcases List.mem_cons.mp hb2 with hbf | hb3
      · rw [hbf]
        rcases strLe_total f g with h2 | h2
        · exact absurd h2 h
        · exact h2
      · exact hg b hb3

theorem sortNames_pairwise (l : List String) :
    List.Pairwise (fun a b => strLe a b = true) (sortNames l) := by
  induction l with
  | nil => exact List.Pairwise.nil
  | cons f rest ih =>
    rw [sortNames]
    exact insertSorted_pairwise f (sortNames rest) ih

/-- C10: the documents a tier processes are exactly the directory entries
ending in `.html`, in ascending name order; any other entry is never
rendered, hashed, clustered, or present in any returned group. -/
theorem claim_C10 (e : TierEnv) :
    (∀ f ∈ htmlFiles e, f ∈ e.entries ∧ endsWithStr f ".html" = true) ∧
      (∀ f ∈ e.entries, endsWithStr f ".html" = true → f ∈ htmlFiles e) ∧
      List.Pairwise (fun a b => strLe a b = true) (htmlFiles e) ∧
      (∀ f ∈ e.entries, endsWithStr f ".html" = false →
        f ∉ htmlFiles e ∧ ∀ g ∈ processTierGroups e, f ∉ g) := by
  have hmem : ∀ f, f ∈ htmlFiles e ↔
      f ∈ e.entries ∧ endsWithStr f ".html" = true := by
    intro f
    unfold htmlFiles
    rw [(sortNames_perm _).mem_iff, List.mem_filter]
  refine ⟨fun f hf => (hmem f).mp hf,
    fun f hf h2 => (hmem f).mpr ⟨hf, h2⟩,
    sortNames_pairwise _, ?_⟩
  intro f _ hno
  have hnot : f ∉ htmlFiles e := by
    intro hf
    rw [((hmem f).mp hf).2] at hno
    exact absurd hno (by decide)
  refine ⟨hnot, ?_⟩
  intro g hg hfg
  -- a grouped name came through hashing, rendering, and discovery
  unfold processTierGroups at hg
  by_cases h1 : screenshotMap e = []
  · rw [if_pos h1] at hg
    simp at hg
  · rw [if_neg h1] at hg
    by_cases h2 : hashedOf e = []
    · rw [if_pos h2] at hg
      simp at hg
    · rw [if_neg h2] at hg
      have hgg : g ∈ (groupsOf e).map (·.2) := by
        unfold finalGroups at hg
        exact hg
      have hfflat : f ∈ ((groupsOf e).map (·.2)).flatten :=
        List.mem_flatten.mpr ⟨g, hgg, hfg⟩
      have hperm := groupByLabel_flatten_perm (labeledOf e)
      have hfzip : f ∈ (labeledOf e).map (·.2) := hperm.mem_iff.mp hfflat
      have hfnames : f ∈ (hashedOf e).map (·.1) := by
        unfold labeledOf at hfzip
        have hlen : ((hashedOf e).map (·.1)).length ≤ (labelsOf e).length := by
          unfold labelsOf
          rw [dbscanLabels_length, List.length_map, List.length_map]
        rw [List.map_snd_zip _ _ hlen] at hfzip
        exact hfzip
      have hfshot : f ∈ (screenshotMap e).map (·.1) := by
        unfold hashedOf at hfnames
        rw [List.map_map] at hfnames
        rcases List.mem_map.mp hfnames with ⟨p, hp, hpf⟩
        exact List.mem_map.mpr ⟨p, List.mem_of_mem_filter hp, hpf⟩
      have hfhtml : f ∈ htmlFiles e := by
        unfold screenshotMap renderResults tasksOf at hfshot
        rcases List.mem_map.mp hfshot with ⟨p, hp, hpf⟩
        rcases List.mem_filterMap.mp hp with ⟨o, ho, hoo⟩
        rcases List.mem_map.mp ho with ⟨t, ht, hto⟩
        rcases List.mem_map.mp ht with ⟨nm, hnm, hnt⟩
        unfold renderTask at hto
        by_cases hr : e.renderOk t.1 = true
        · rw [if_pos hr] at hto
          have : o = some t := hto.symm
          rw [this] at hoo
          have hpt : p = t := by
            have h3 : t = p := by simpa using hoo
            exact h3.symm
          rw [← hnt] at hpt
          have : f = nm := by
            rw [← hpf, hpt]
          rw [this]
          exact hnm
        · rw [if_neg (by simpa using hr)] at hto
          rw [← hto] at hoo
          simp at hoo
      exact hnot hfhtml

/-- Witness for C10: the non-HTML entry is ignored, the HTML entries are
processed in sorted order. -/
theorem claim_C10_witness :
    htmlFiles envW10 = ["a.html", "b.html"] ∧
      ("notes.txt" ∈ envW10.entries ∧ endsWithStr "notes.txt" ".html" = false) ∧
      "notes.txt" ∉ htmlFiles envW10 ∧
      ∀ g ∈ processTierGroups envW10, "notes.txt" ∉ g :=
  ⟨by decide, ⟨by decide, by decide⟩,
    ((claim_C10 envW10).2.2.2 "notes.txt" (by decide) (by decide)).1,
    ((claim_C10 envW10).2.2.2 "notes.txt" (by decide) (by decide)).2⟩

/-! ## Render scheduler (C3) -/

theorem getD_map_lt {α β : Type} (f : α → β) (l : List α) (d : α) (d' : β) :
    ∀ {i : Nat}, i < l.length → (l.map f).getD i d' = f (l.getD i d) := by
  intro i
  induction l generalizing i with
  | nil => intro h; simp at h
  | cons x xs ih =>
    intro h
    cases i with
    | zero => rfl
    | succ m =>
      rw [List.map_cons, List.getD_cons_succ, List.getD_cons_succ]
      exact ih (by simpa using h)

/-- C3 (amended): `pool.map` yields exactly one RenderResult per submitted
task, in order: `some (document name, image path)` when the render succeeds
and the bare failure marker `none` when it fails.  (The failure marker
itself carries no document identifier and no error description — the
counterexample shows two distinct failing documents produce identical
markers; the error is only printed.) -/
theorem claim_C3 (e : TierEnv) :
    (renderResults e).length = (tasksOf e).length ∧
      ∀ i, i < (tasksOf e).length →
        (e.renderOk ((tasksOf e).getD i ("", "")).1 = true ∧
          (renderResults e).getD i none =
            some ((tasksOf e).getD i ("", ""))) ∨
        (e.renderOk ((tasksOf e).getD i ("", "")).1 = false ∧
          (renderResults e).getD i none = none) := by
  constructor
  · unfold renderResults
    rw [List.length_map]
  · intro i hi
    unfold renderResults
    rw [getD_map_lt _ _ ("", "") none hi]
    unfold renderTask
    by_cases hr : e.renderOk ((tasksOf e).getD i ("", "")).1 = true
    · rw [if_pos hr]
      exact Or.inl ⟨hr, rfl⟩
    · rw [if_neg hr]
      exact Or.inr ⟨by simpa using hr, rfl⟩

/-- Counterexample to C3 as stated: two distinct documents whose renders
fail yield the very same RenderResult `none`; a marker equal for different
documents cannot carry "that document identifier", nor any error
description. -/
theorem claim_C3_counterexample :
    renderTask (fun _ => false) ("a.html", "/tmp/a.png") =
        renderTask (fun _ => false) ("b.html", "/tmp/b.png") ∧
      renderTask (fun _ => false) ("a.html", "/tmp/a.png") = none ∧
      "a.html" ≠ "b.html" := by
  refine ⟨rfl, rfl, ?_⟩
  decide

/-- Witness for C3: the failing second task still yields exactly one
result, the marker `none`. -/
theorem claim_C3_witness :
    (renderResults envW3).length = (tasksOf envW3).length ∧
      ((envW3.renderOk ((tasksOf envW3).getD 1 ("", "")).1 = true ∧
        (renderResults envW3).getD 1 none =
          some ((tasksOf envW3).getD 1 ("", ""))) ∨
      (envW3.renderOk ((tasksOf envW3).getD 1 ("", "")).1 = false ∧
        (renderResults envW3).getD 1 none = none)) :=
  ⟨(claim_C3 envW3).1, (claim_C3 envW3).2 1 (by decide)⟩

/-! ## Neighborhood threshold (C6) -/

/-- C6: two points of the clustering are neighbors exactly when the
normalized Hamming distance of their fingerprints is `≤ eps` (the
scikit-learn radius is inclusive); concretely, with `eps = 0.25` over
32-bit fingerprints, 9 differing bits (distance 9/32 = 0.28125) is not a
neighbor and 7 differing bits (distance 7/32 = 0.21875) is. -/
theorem claim_C6 :
    (∀ (X : List (List Bool)) (eps : ℚ) (i j : Nat),
      i < X.length → j < X.length →
      (j ∈ nbrsOf X eps i ↔
        hamming (X.getD i []) (X.getD j []) ≤ eps)) ∧
      hamming fpZero fpNine = mkRat 9 32 ∧
      ¬ (mkRat 9 32 ≤ mkRat 1 4) ∧
      1 ∉ nbrsOf [fpZero, fpNine] (mkRat 1 4) 0 ∧
      hamming fpZero fpSeven = mkRat 7 32 ∧
      mkRat 7 32 ≤ mkRat 1 4 ∧
      1 ∈ nbrsOf [fpZero, fpSeven] (mkRat 1 4) 0 := by
  refine ⟨?_, by decide, by decide, by decide, by decide, by decide, by decide⟩
  intro X eps i j _ hj
  rw [mem_nbrsOf]
  exact and_iff_right hj

/-! ## Cleanup invariant (C1) -/

theorem hashedOf_nil_of_shot_nil {e : TierEnv} (h : screenshotMap e = []) :
    hashedOf e = [] := by
  unfold hashedOf
  rw [h]
  rfl

/-- Counterexample to C1 as stated: on a run with one successful render and
zero successful hashes, `process_tier` returns from the "No valid hashes"
branch before the cleanup step, and the rendered screenshot stays on disk
even though the caller did not opt in to saving groups. -/
theorem claim_C1_counterexample :
    envC1.saveGroups = false ∧
      remainingFiles envC1 = [screenshotPath envC1 "a.html"] ∧
      screenshotPath envC1 "a.html" ∈ writtenScreenshots envC1 := by
  refine ⟨rfl, by decide, by decide⟩

/-- C1 (amended): on every run that either has no successful render or
reaches the clustering stage (at least one successful hash), cleanup is the
terminal step and no rendered screenshot remains on disk — everything left
is an explicitly persisted copy, and nothing at all is left when the caller
opted out of saving groups.  The excluded case — at least one successful
render and zero successful hashes — returns early and leaves every rendered
screenshot behind (see the counterexample). -/
theorem claim_C1 (e : TierEnv)
    (h : screenshotMap e = [] ∨ hashedOf e ≠ []) :
    (∀ p ∈ remainingFiles e, p ∈ persistedCopies e) ∧
      (e.saveGroups = false → remainingFiles e = []) := by
  rcases h with h | h
  · have hw : writtenScreenshots e = [] := by
      unfold writtenScreenshots
      rw [h]
      rfl
    unfold remainingFiles
    rw [if_pos h, hw]
    exact ⟨fun p hp => absurd hp (by simp), fun _ => rfl⟩
  · have hs : ¬ screenshotMap e = [] := by
      intro h2
      exact h (hashedOf_nil_of_shot_nil h2)
    unfold remainingFiles
    rw [if_neg hs, if_neg h]
    constructor
    · intro p hp
      by_cases hsg : e.saveGroups = true
      · rw [if_pos hsg] at hp
        have h2 := List.mem_filter.mp hp
        have h3 : p ∉ writtenScreenshots e := by
          have h4 := h2.2
          simp only [Bool.not_eq_true'] at h4
          intro hmem
          have h5 : (writtenScreenshots e).contains p = true :=
            List.elem_eq_true_of_mem hmem
          rw [h4] at h5
          exact absurd h5 (by decide)
        rcases List.mem_append.mp h2.1 with h5 | h5
        · exact absurd h5 h3
        · exact h5
      · rw [if_neg hsg] at hp
        have h2 := List.mem_filter.mp hp
        have h2' := List.mem_filter.mp h2.1
        have h3 : p ∉ writtenScreenshots e := by
          have h4 := h2'.2
          simp only [Bool.not_eq_true'] at h4
          intro hmem
          have h5 : (writtenScreenshots e).contains p = true :=
            List.elem_eq_true_of_mem hmem
          rw [h4] at h5
          exact absurd h5 (by decide)
        rcases List.mem_append.mp h2'.1 with h5 | h5
        · exact absurd h5 h3
        · exact h5
    · intro hsg
      have hpc : persistedCopies e = [] := by
        unfold persistedCopies
        rw [if_neg (by rw [hsg]; exact Bool.false_ne_true)]
      rw [if_neg (by rw [hsg]; exact Bool.false_ne_true), hpc,
        List.append_nil]
      have hfil : (writtenScreenshots e).filter
          (fun p => !((writtenScreenshots e).contains p)) = [] := by
        rw [List.filter_eq_nil_iff]
        intro a ha
        have h5 : (writtenScreenshots e).contains a = true :=
          List.elem_eq_true_of_mem ha
        simp [h5, ha]
      rw [hfil]
      rfl

/-- Witness for C1 on a fully successful discard run: nothing remains. -/
theorem claim_C1_witness :
    (screenshotMap envW1 = [] ∨ hashedOf envW1 ≠ []) ∧
      (∀ p ∈ remainingFiles envW1, p ∈ persistedCopies envW1) ∧
      (envW1.saveGroups = false → remainingFiles envW1 = []) :=
  ⟨Or.inr (by decide), claim_C1 envW1 (Or.inr (by decide))⟩

/-! ## Persisting folders (C8) -/

theorem mem_enumFrom_getD {α : Type} (d : α) :
    ∀ (l : List α) (k i : Nat), i < l.length →
      (k + i, l.getD i d) ∈ l.enumFrom k := by
  intro l
  induction l with
  | nil => intro k i h; simp at h
  | cons x xs ih =>
    intro k i h
    cases i with
    | zero => simp [List.enumFrom]
    | succ m =>
      have h2 : k + (m + 1) = (k + 1) + m := by omega
      rw [List.getD_cons_succ, h2]
      exact List.mem_cons_of_mem _ (ih (k + 1) m (by simpa using h))

theorem mem_enum_getD {α : Type} (d : α) (l : List α) {i : Nat}
    (h : i < l.length) : (i, l.getD i d) ∈ l.enum := by
  have h2 := mem_enumFrom_getD d l 0 i h
  rw [Nat.zero_add] at h2
  exact h2

/-- Counterexample to C8 as stated: `b.html` belongs to the cluster with
label `0`, yet its screenshot is copied into `group_1` — the folder is
named by the `enumerate` index of the group, which shifts past the noise
group that happens to come first — and no copy lands in `group_0`. -/
theorem claim_C8_counterexample :
    envC8.saveGroups = true ∧
      (0, ["b.html", "c.html"]) ∈ groupsOf envC8 ∧
      persistedCopies envC8 =
        ["/out/t1/group_noise/a.html.png",
         "/out/t1/group_1/b.html.png",
         "/out/t1/group_1/c.html.png"] ∧
      "/out/t1/group_0/b.html.png" ∉ persistedCopies envC8 := by
  refine ⟨rfl, by decide, by decide, by decide⟩

/-- C8 (amended): when the caller opts in, each document's rendered image
is copied into `group_<k>` where `k` is the position of the document's
group in the returned group order — not the numeric cluster label, from
which it differs as soon as the noise group precedes a cluster — and the
noise group's folder uses the literal suffix `noise`; when the caller opts
out, no copy is made at all. -/
theorem claim_C8 (e : TierEnv) :
    (e.saveGroups = false → persistedCopies e = []) ∧
      (e.saveGroups = true →
        ∀ idx, idx < (groupsOf e).length →
          ∀ f ∈ ((groupsOf e).getD idx (0, [])).2,
            (tierOutputDir e ++ "/group_" ++
              groupTag idx ((groupsOf e).getD idx (0, [])).1 ++
              "/" ++ f ++ ".png") ∈ persistedCopies e) ∧
      (∀ idx : Nat, groupTag idx (-1) = "noise") ∧
      (∀ idx : Nat, ∀ l : Int, l ≠ -1 → groupTag idx l = toString idx) := by
  refine ⟨?_, ?_, ?_, ?_⟩
  · intro h
    unfold persistedCopies
    rw [if_neg (by rw [h]; exact Bool.false_ne_true)]
  · intro hsg idx hidx f hf
    unfold persistedCopies
    rw [if_pos hsg]
    refine List.mem_flatMap.mpr ?_
    refine ⟨(idx, (groupsOf e).getD idx (0, [])), mem_enum_getD _ _ hidx, ?_⟩
    exact List.mem_map.mpr ⟨f, hf, rfl⟩
  · intro idx
    rfl
  · intro idx l hl
    unfold groupTag
    rw [if_pos hl]

/-- Witness for C8 at `envC8`: the label-0 cluster sits at position 1 and
its member is indeed copied into `group_1`. -/
theorem claim_C8_witness :
    envC8.saveGroups = true ∧
      (tierOutputDir envC8 ++ "/group_" ++
        groupTag 1 ((groupsOf envC8).getD 1 (0, [])).1 ++
        "/" ++ "b.html" ++ ".png") ∈ persistedCopies envC8 :=
  ⟨rfl, (claim_C8 envC8).2.1 rfl 1 (by decide) "b.html" (by decide)⟩

/-! ## One cluster for identical fingerprints (C5) -/

theorem eq_replicate_of_getD (c : Int) :
    ∀ (l : List Int), (∀ i, i < l.length → l.getD i 0 = c) →
      l = List.replicate l.length c := by
  intro l
  induction l with
  | nil => intro _; rfl
  | cons x xs ih =>
    intro h
    have h0 : x = c := h 0 (by simp)
    rw [List.length_cons, List.replicate_succ, h0]
    have h1 : xs = List.replicate xs.length c := by
      refine ih ?_
      intro i hi
      have h2 := h (i + 1) (by simpa using hi)
      rwa [List.getD_cons_succ] at h2
    rw [← h1]

theorem replicate_zip (c : Int) :
    ∀ (names : List String) (n : Nat), names.length = n →
      (List.replicate n c).zip names = names.map (fun nm => (c, nm)) := by
  intro names
  induction names with
  | nil =>
    intro n h
    simp
  | cons nm rest ih =>
    intro n h
    cases n with
    | zero => simp at h
    | succ m =>
      rw [List.replicate_succ, List.zip_cons_cons, List.map_cons,
        ih m (by simpa using h)]

theorem groupFold_const_key (l : Int) :
    ∀ (names : List String) (acc0 : List String),
      groupFold [(l, acc0)] (names.map (fun nm => (l, nm))) =
        [(l, acc0 ++ names)] := by
  intro names
  induction names with
  | nil =>
    intro acc0
    simp [groupFold]
  | cons nm rest ih =>
    intro acc0
    rw [List.map_cons, groupFold]
    have h1 : addToGroup [(l, acc0)] l nm = [(l, acc0 ++ [nm])] := by
      simp [addToGroup]
    simp only [h1]
    rw [ih (acc0 ++ [nm]), List.append_assoc]
    rfl

theorem groupByLabel_const_key (l : Int) (names : List String)
    (h : names ≠ []) :
    groupByLabel (names.map (fun nm => (l, nm))) = [(l, names)] := by
  cases names with
  | nil => exact absurd rfl h
  | cons nm rest =>
    rw [List.map_cons]
    unfold groupByLabel
    rw [groupFold]
    have h1 : addToGroup [] l nm = [(l, [nm])] := rfl
    simp only [h1]
    rw [groupFold_const_key l rest [nm]]
    rfl

/-- C5: when every fingerprint is bit-identical and there are at least
`min_samples = 2` documents, the clustering returns exactly one non-noise
cluster holding all the documents, and no noise group at all. -/
theorem claim_C5 (ps : List (String × List Bool)) (v : List Bool)
    (h2 : 2 ≤ ps.length) (hall : ∀ p ∈ ps, p.2 = v) :
    ∃ l : Int, l ≠ -1 ∧ clusterGroups ps = [(l, ps.map (·.1))] := by
  have heps : (0 : ℚ) ≤ mkRat 1 4 := by decide
  set X := ps.map (·.2) with hXdef
  have hn : X.length = ps.length := List.length_map _ _
  have hv : ∀ i, i < X.length → X.getD i [] = v := by
    intro i hi
    have hmem := getD_mem_of_lt hi
    rcases List.mem_map.mp hmem with ⟨p, hp, hpv⟩
    rw [← hpv]
    exact hall p hp
  have hX : SameLen X := by
    intro u hu w hw
    rcases List.mem_map.mp hu with ⟨p, hp, hpu⟩
    rcases List.mem_map.mp hw with ⟨q, hq, hqw⟩
    rw [← hpu, ← hqw, hall p hp, hall q hq]
  have hnbr : ∀ i j, i < X.length → j < X.length →
      j ∈ nbrsOf X (mkRat 1 4) i := by
    intro i j hi hj
    refine mem_nbrsOf.mpr ⟨hj, ?_⟩
    rw [hv i hi, hv j hj, hamming_self]
    exact heps
  have hcore : ∀ i, i < X.length → isCoreOf X (mkRat 1 4) 2 i = true := by
    intro i hi
    have hjlt : (if i = 0 then 1 else 0) < X.length := by
      by_cases h : i = 0 <;> simp [h] <;> omega
    have hjne : (if i = 0 then 1 else 0) ≠ i := by
      by_cases h : i = 0 <;> simp [h]
      omega
    exact (isCore2_of_nbr heps hX i _ hi (hnbr i _ hi hjlt) hjne).1
  set L := dbscanLabels X (mkRat 1 4) 2 with hLdef
  have hLlen : L.length = X.length := dbscanLabels_length _ _ _
  have hnonoise : ∀ i, i < X.length → L.getD i 0 ≠ -1 := by
    intro i hi hneg
    have h3 := (dbscanLabels_noise_iff heps hX hi).mp hneg
    rw [hcore i hi] at h3
    exact absurd h3 (by decide)
  have hsame : ∀ i, i < X.length → L.getD i 0 = L.getD 0 0 := by
    intro i hi
    have h0 : (0 : Nat) < X.length := by omega
    refine (dbscanLabels_conn_iff heps hX hi h0 (hcore i hi) (hcore 0 h0)).mpr ?_
    exact Relation.ReflTransGen.single
      ⟨hi, h0, hnbr i 0 hi h0, hcore i hi, hcore 0 h0⟩
  refine ⟨L.getD 0 0, hnonoise 0 (by omega), ?_⟩
  have hrep : L = List.replicate ps.length (L.getD 0 0) := by
    have h3 := eq_replicate_of_getD (L.getD 0 0) L
      (fun i hi => hsame i (by omega))
    rwa [hLlen, hn] at h3
  have hzip : L.zip (ps.map (·.1)) =
      (ps.map (·.1)).map (fun nm => (L.getD 0 0, nm)) := by
    have h5 := replicate_zip (L.getD 0 0) (ps.map (·.1)) ps.length
      (by rw [List.length_map])
    rw [← hrep] at h5
    exact h5
  unfold clusterGroups
  rw [← hXdef, ← hLdef, hzip, groupByLabel_const_key]
  intro hmap
  have h4 : ps.length = 0 := by
    have h6 := congrArg List.length hmap
    simpa using h6
  omega

/-- Witness for C5: two identical fingerprints become one cluster holding
both documents and no noise group. -/
theorem claim_C5_witness :
    (2 ≤ psW5.length ∧ ∀ p ∈ psW5, p.2 = [true, false]) ∧
      ∃ l : Int, l ≠ -1 ∧ clusterGroups psW5 = [(l, psW5.map (·.1))] :=
  ⟨⟨by decide, by decide⟩, claim_C5 psW5 [true, false] (by decide) (by decide)⟩

/-! ## Bucket lemmas for the grouping fold (towards C9) -/

theorem addToGroup_self (acc : List (Int × List String)) (l : Int)
    (x : String) :
    ∃ fs, (l, fs) ∈ addToGroup acc l x ∧ x ∈ fs := by
  induction acc with
  | nil => exact ⟨[x], by simp [addToGroup], by simp⟩
  | cons e rest ih =>
    obtain ⟨la, fsa⟩ := e
    by_cases h : la = l
    · subst h
      exact ⟨fsa ++ [x], by simp [addToGroup], by simp⟩
    · obtain ⟨fs, h1, h2⟩ := ih
      exact ⟨fs, by simp [addToGroup, h, h1], h2⟩

theorem addToGroup_grow (l2 : Int) (x2 : String) :
    ∀ (acc : List (Int × List String)) (l : Int) (fs0 : List String),
      (l, fs0) ∈ acc →
      ∃ fs, (l, fs) ∈ addToGroup acc l2 x2 ∧ ∀ x ∈ fs0, x ∈ fs := by
  intro acc
  induction acc with
  | nil => intro l fs0 h; simp at h
  | cons e rest ih =>
    obtain ⟨la, fsa⟩ := e
    intro l fs0 hmem
    by_cases h : la = l2
    · subst h
      rcases List.mem_cons.mp hmem with heq | htail
      · obtain ⟨h1, h2⟩ := Prod.mk.injEq .. ▸ heq
        exact ⟨fsa ++ [x2], by simp [addToGroup, ← h1],
          fun x hx => by simp [← h2] at hx ⊢; exact Or.inl hx⟩
      · exact ⟨fs0, by simp [addToGroup, htail], fun x hx => hx⟩
    · rcases List.mem_cons.mp hmem with heq | htail
      · exact ⟨fs0, by simp [addToGroup, h, heq], fun x hx => hx⟩
      · obtain ⟨fs, h1, h2⟩ := ih l fs0 htail
        exact ⟨fs, by simp [addToGroup, h, h1], h2⟩

theorem groupFold_grow :
    ∀ (qs : List (Int × String)) (acc : List (Int × List String))
      (l : Int) (fs0 : List String),
      (l, fs0) ∈ acc →
      ∃ fs, (l, fs) ∈ groupFold acc qs ∧ ∀ x ∈ fs0, x ∈ fs := by
  intro qs
  induction qs with
  | nil => intro acc l fs0 h; exact ⟨fs0, h, fun x hx => hx⟩
  | cons p rest ih =>
    intro acc l fs0 h
    obtain ⟨fs1, h1, h2⟩ := addToGroup_grow p.1 p.2 acc l fs0 h
    obtain ⟨fs2, h3, h4⟩ := ih (addToGroup acc p.1 p.2) l fs1 h1
    exact ⟨fs2, h3, fun x hx => h4 x (h2 x hx)⟩

theorem bucket_complete :
    ∀ (qs : List (Int × String)) (acc : List (Int × List String))
      (l : Int) (x : String),
      (l, x) ∈ qs →
      ∃ fs, (l, fs) ∈ groupFold acc qs ∧ x ∈ fs := by
  intro qs
  induction qs with
  | nil => intro acc l x h; simp at h
  | cons p rest ih =>
    intro acc l x h
    rcases List.mem_cons.mp h with heq | htail
    · obtain ⟨h1, h2⟩ := Prod.mk.injEq .. ▸ heq
      obtain ⟨fs0, h3, h4⟩ := addToGroup_self acc p.1 p.2
      obtain ⟨fs, h5, h6⟩ := groupFold_grow rest _ p.1 fs0 h3
      rw [groupFold]
      exact ⟨fs, by rw [← h1] at h5 ⊢; exact h5, by rw [h2]; exact h6 _ h4⟩
    · exact ih (addToGroup acc p.1 p.2) l x htail

theorem addToGroup_sound (l2 : Int) (x2 : String) :
    ∀ (acc : List (Int × List String)) (l : Int) (fs : List String)
      (x : String),
      (l, fs) ∈ addToGroup acc l2 x2 → x ∈ fs →
      (∃ fs1, (l, fs1) ∈ acc ∧ x ∈ fs1) ∨ (l = l2 ∧ x = x2) := by
  intro acc
  induction acc with
  | nil =>
    intro l fs x h1 h2
    simp only [addToGroup, List.mem_singleton] at h1
    obtain ⟨ha, hb⟩ := Prod.mk.injEq .. ▸ h1
    rw [hb] at h2
    exact Or.inr ⟨ha, by simpa using h2⟩
  | cons e rest ih =>
    obtain ⟨la, fsa⟩ := e
    intro l fs x h1 h2
    by_cases h : la = l2
    · subst h
      rw [addToGroup, if_pos rfl] at h1
      rcases List.mem_cons.mp h1 with heq | htail
      · obtain ⟨ha, hb⟩ := Prod.mk.injEq .. ▸ heq
        rw [hb] at h2
        rcases List.mem_append.mp h2 with h3 | h3
        · exact Or.inl ⟨fsa, by simp [← ha], h3⟩
        · exact Or.inr ⟨ha, by simpa using h3⟩
      · exact Or.inl ⟨fs, List.mem_cons_of_mem _ htail, h2⟩
    · rw [addToGroup, if_neg h] at h1
      rcases List.mem_cons.mp h1 with heq | htail
      · exact Or.inl ⟨fs, by rw [heq]; exact List.mem_cons_self _ _, h2⟩
      · rcases ih l fs x htail h2 with ⟨fs1, h3, h4⟩ | h3
        · exact Or.inl ⟨fs1, List.mem_cons_of_mem _ h3, h4⟩
        · exact Or.inr h3

theorem bucket_sound :
    ∀ (qs : List (Int × String)) (acc : List (Int × List String))
      (l : Int) (fs : List String) (x : String),
      (l, fs) ∈ groupFold acc qs → x ∈ fs →
      (∃ fs1, (l, fs1) ∈ acc ∧ x ∈ fs1) ∨ (l, x) ∈ qs := by
  intro qs
  induction qs with
  | nil => intro acc l fs x h1 h2; exact Or.inl ⟨fs, h1, h2⟩
  | cons p rest ih =>
    intro acc l fs x h1 h2
    rcases ih (addToGroup acc p.1 p.2) l fs x h1 h2 with ⟨fs1, h3, h4⟩ | h3
    · rcases addToGroup_sound p.1 p.2 acc l fs1 x h3 h4 with h5 | ⟨h5, h6⟩
      · exact Or.inl h5
      · refine Or.inr ?_
        rw [h5, h6]
        exact List.mem_cons_self _ _
    · exact Or.inr (List.mem_cons_of_mem _ h3)

theorem addToGroup_keys (l2 : Int) (x2 : String) :
    ∀ (acc : List (Int × List String)),
      (addToGroup acc l2 x2).map (·.1) =
        if l2 ∈ acc.map (·.1) then acc.map (·.1)
        else acc.map (·.1) ++ [l2] := by
  intro acc
  induction acc with
  | nil => simp [addToGroup]
  | cons e rest ih =>
    obtain ⟨la, fsa⟩ := e
    by_cases h : la = l2
    · subst h
      rw [addToGroup, if_pos rfl]
      simp
    · rw [addToGroup, if_neg h]
      simp only [List.map_cons, List.mem_cons, ih]
      by_cases h2 : l2 ∈ rest.map (·.1)
      · rw [if_pos h2, if_pos (Or.inr h2)]
      · rw [if_neg h2, if_neg (by
          intro h3
          rcases h3 with h3 | h3
          · exact h (h3.symm)
          · exact h2 h3)]
        rfl

theorem groupFold_keys_nodup :
    ∀ (qs : List (Int × String)) (acc : List (Int × List String)),
      ((acc.map (·.1)).Nodup) →
      ((groupFold acc qs).map (·.1)).Nodup := by
  intro qs
  induction qs with
  | nil => intro acc h; exact h
  | cons p rest ih =>
    intro acc h
    rw [groupFold]
    refine ih _ ?_
    rw [addToGroup_keys]
    by_cases h2 : p.1 ∈ acc.map (·.1)
    · rw [if_pos h2]
      exact h
    · rw [if_neg h2]
      rw [← List.concat_eq_append]
      exact List.Nodup.concat h2 h

theorem groupByLabel_keys_nodup (qs : List (Int × String)) :
    ((groupByLabel qs).map (·.1)).Nodup :=
  groupFold_keys_nodup qs [] (by simp)

theorem bucket_unique {gr : List (Int × List String)}
    (hk : (gr.map (·.1)).Nodup) {l : Int} {fs1 fs2 : List String}
    (h1 : (l, fs1) ∈ gr) (h2 : (l, fs2) ∈ gr) : fs1 = fs2 := by
  induction gr with
  | nil => simp at h1
  | cons g rest ih =>
    rw [List.map_cons] at hk
    obtain ⟨hg, hrest⟩ := List.nodup_cons.mp hk
    rcases List.mem_cons.mp h1 with he1 | ht1 <;>
      rcases List.mem_cons.mp h2 with he2 | ht2
    · rw [← he2] at he1
      exact congrArg Prod.snd he1
    · exfalso
      refine hg ?_
      have hl : g.1 = l := (congrArg Prod.fst he1).symm
      rw [hl]
      exact List.mem_map.mpr ⟨(l, fs2), ht2, rfl⟩
    · exfalso
      refine hg ?_
      have hl : g.1 = l := (congrArg Prod.fst he2).symm
      rw [hl]
      exact List.mem_map.mpr ⟨(l, fs1), ht1, rfl⟩
    · exact ih hrest ht1 ht2

theorem mem_zip_iff_getD :
    ∀ (la : List Int) (ns : List String) (l : Int) (x : String),
      ((l, x) ∈ la.zip ns ↔
        ∃ i, i < la.length ∧ i < ns.length ∧
          la.getD i 0 = l ∧ ns.getD i "" = x) := by
  intro la
  induction la with
  | nil => intro ns l x; simp
  | cons a as ih =>
    intro ns l x
    cases ns with
    | nil => simp
    | cons b bs =>
      rw [List.zip_cons_cons]
      constructor
      · intro h
        rcases List.mem_cons.mp h with heq | ht
        · obtain ⟨h1, h2⟩ := Prod.mk.injEq .. ▸ heq
          exact ⟨0, by simp, by simp, by simpa using h1.symm,
            by simpa using h2.symm⟩
        · obtain ⟨i, hi1, hi2, hi3, hi4⟩ := (ih bs l x).mp ht
          exact ⟨i + 1, by simpa using hi1, by simpa using hi2,
            by simpa using hi3, by simpa using hi4⟩
      · rintro ⟨i, hi1, hi2, hi3, hi4⟩
        cases i with
        | zero =>
          rw [List.getD_cons_zero] at hi3 hi4
          rw [← hi3, ← hi4]
          exact List.mem_cons_self _ _
        | succ m =>
          rw [List.getD_cons_succ] at hi3 hi4
          refine List.mem_cons_of_mem _ ((ih bs l x).mpr ?_)
          exact ⟨m, by simpa using hi1, by simpa using hi2, hi3, hi4⟩

theorem getD_mem_any {α : Type} (d : α) :
    ∀ (l : List α) (i : Nat), i < l.length → l.getD i d ∈ l := by
  intro l
  induction l with
  | nil => intro i h; simp at h
  | cons x xs ih =>
    intro i h
    cases i with
    | zero => simp
    | succ m =>
      rw [List.getD_cons_succ]
      exact List.mem_cons_of_mem _ (ih m (by simpa using h))

theorem exists_getD_of_mem {α : Type} (d : α) {a : α} :
    ∀ (l : List α), a ∈ l → ∃ i, i < l.length ∧ l.getD i d = a := by
  intro l
  induction l with
  | nil => intro h; simp at h
  | cons x xs ih =>
    intro h
    rcases List.mem_cons.mp h with rfl | ht
    · exact ⟨0, by simp, rfl⟩
    · obtain ⟨i, hi1, hi2⟩ := ih ht
      exact ⟨i + 1, by simpa using hi1, by simpa using hi2⟩

theorem nodup_getD_inj {α : Type} (d : α) :
    ∀ (l : List α), l.Nodup → ∀ i j, i < l.length → j < l.length →
      l.getD i d = l.getD j d → i = j := by
  intro l
  induction l with
  | nil => intro _ i j hi; simp at hi
  | cons a as ih =>
    intro hnd i j hi hj heq
    obtain ⟨ha, has⟩ := List.nodup_cons.mp hnd
    cases i with
    | zero =>
      cases j with
      | zero => rfl
      | succ m =>
        rw [List.getD_cons_zero, List.getD_cons_succ] at heq
        exact absurd (heq ▸ getD_mem_any d as m (by simpa using hj)) ha
    | succ n =>
      cases j with
      | zero =>
        rw [List.getD_cons_succ, List.getD_cons_zero] at heq
        exact absurd (heq ▸ getD_mem_any d as n (by simpa using hi)) ha
      | succ m =>
        rw [List.getD_cons_succ, List.getD_cons_succ] at heq
        exact congrArg Nat.succ
          (ih has n m (by simpa using hi) (by simpa using hj) heq)

/-! ## Bridging indices to the membership-level predicates (towards C9)

`MCore`/`MAdj`/`MConn` express core-ness and core-connectivity directly on
the (document, fingerprint) pairs, with no mention of positions, so they
are manifestly invariant under permutation of the input; these lemmas match
them with the index-level `isCoreOf`/`CoreConn` of the characterization. -/

theorem exists_mem_ne_of_two_le {l : List Nat} (h2 : 2 ≤ l.length)
    (hnd : l.Nodup) (i : Nat) : ∃ j ∈ l, j ≠ i := by
  cases l with
  | nil => simp at h2
  | cons a tl =>
    cases tl with
    | nil => simp at h2
    | cons b rest =>
      obtain ⟨hab, _⟩ := List.nodup_cons.mp hnd
      have hne : a ≠ b := by
        intro h
        exact hab (h ▸ List.mem_cons_self _ _)
      by_cases hai : a = i
      · refine ⟨b, List.mem_cons_of_mem _ (List.mem_cons_self _ _), ?_⟩
        intro h
        exact hne (by rw [hai, h])
      · exact ⟨a, List.mem_cons_self _ _, hai⟩

theorem isCore_iff_MCore (ps : List (String × List Bool))
    (hnodup : (ps.map (·.1)).Nodup) {i : Nat} (hi : i < ps.length) :
    isCoreOf (ps.map (·.2)) (mkRat 1 4) 2 i = true ↔
      MCore ps (ps.getD i ("", [])) := by
  have heps : (0 : ℚ) ≤ mkRat 1 4 := by decide
  have hiX : i < (ps.map (·.2)).length := by
    rw [List.length_map]
    exact hi
  have hXi : (ps.map (·.2)).getD i [] = (ps.getD i ("", [])).2 :=
    getD_map_lt _ _ ("", []) [] hi
  have hnmi : (ps.map (·.1)).getD i "" = (ps.getD i ("", [])).1 :=
    getD_map_lt _ _ ("", []) "" hi
  unfold isCoreOf
  rw [decide_eq_true_eq]
  constructor
  · intro h2
    obtain ⟨j, hjmem, hjne⟩ :=
      exists_mem_ne_of_two_le h2 (nbrsOf_nodup _ _ _) i
    obtain ⟨hjX, hd⟩ := mem_nbrsOf.mp hjmem
    have hj : j < ps.length := by
      rw [List.length_map] at hjX
      exact hjX
    have hXj : (ps.map (·.2)).getD j [] = (ps.getD j ("", [])).2 :=
      getD_map_lt _ _ ("", []) [] hj
    have hnmj : (ps.map (·.1)).getD j "" = (ps.getD j ("", [])).1 :=
      getD_map_lt _ _ ("", []) "" hj
    refine ⟨getD_mem_any _ _ _ hi, ps.getD j ("", []),
      getD_mem_any _ _ _ hj, ?_, ?_⟩
    · intro h
      refine hjne (nodup_getD_inj "" (ps.map (·.1)) hnodup j i
        (by rw [List.length_map]; exact hj)
        (by rw [List.length_map]; exact hi) ?_)
      rw [hnmi, hnmj, h]
    · rw [← hXi, ← hXj]
      exact hd
  · rintro ⟨_, q, hq, hqne, hqd⟩
    obtain ⟨j, hj, hje⟩ := exists_getD_of_mem ("", []) ps hq
    have hjX : j < (ps.map (·.2)).length := by
      rw [List.length_map]
      exact hj
    have hXj : (ps.map (·.2)).getD j [] = (ps.getD j ("", [])).2 :=
      getD_map_lt _ _ ("", []) [] hj
    have hjne : j ≠ i := by
      intro h
      apply hqne
      rw [← hje, h]
    have hjmem : j ∈ nbrsOf (ps.map (·.2)) (mkRat 1 4) i := by
      refine mem_nbrsOf.mpr ⟨hjX, ?_⟩
      rw [hXi, hXj, hje]
      exact hqd
    exact two_le_length_of_nodup hjne hjmem
      (self_mem_nbrsOf heps hiX) (nbrsOf_nodup _ _ _)

theorem coreConn_to_MConn (ps : List (String × List Bool))
    (hnodup : (ps.map (·.1)).Nodup) {i j : Nat}
    (h : CoreConn (ps.map (·.2)).length (nbrsOf (ps.map (·.2)) (mkRat 1 4))
      (isCoreOf (ps.map (·.2)) (mkRat 1 4) 2) i j) :
    MConn ps (ps.getD i ("", [])) (ps.getD j ("", [])) := by
  induction h with
  | refl => exact Relation.ReflTransGen.refl
  | @tail b c _ hadj ih =>
    obtain ⟨hb, hc, hnbr, hbcore, hccore⟩ := hadj
    have hb' : b < ps.length := by rw [List.length_map] at hb; exact hb
    have hc' : c < ps.length := by rw [List.length_map] at hc; exact hc
    refine Relation.ReflTransGen.tail ih ?_
    refine ⟨(isCore_iff_MCore ps hnodup hb').mp hbcore,
      (isCore_iff_MCore ps hnodup hc').mp hccore, ?_⟩
    have hd := (mem_nbrsOf.mp hnbr).2
    rwa [getD_map_lt _ _ ("", []) [] hb',
      getD_map_lt _ _ ("", []) [] hc'] at hd

theorem MConn_to_coreConn (ps : List (String × List Bool))
    (hnodup : (ps.map (·.1)).Nodup) {p q : String × List Bool}
    (h : MConn ps p q) :
    ∀ i j, i < ps.length → j < ps.length →
      ps.getD i ("", []) = p → ps.getD j ("", []) = q →
      CoreConn (ps.map (·.2)).length (nbrsOf (ps.map (·.2)) (mkRat 1 4))
        (isCoreOf (ps.map (·.2)) (mkRat 1 4) 2) i j := by
  have hpsnd : ps.Nodup := hnodup.of_map
  induction h with
  | refl =>
    intro i j hi hj hpi hpj
    have hij : i = j := by
      refine nodup_getD_inj ("", []) ps hpsnd i j hi hj ?_
      rw [hpi, hpj]
    rw [hij]
    exact Relation.ReflTransGen.refl
  | @tail b c _ hadj ih =>
    intro i j hi hj hpi hpj
    have hbmem : b ∈ ps := hadj.1.1
    obtain ⟨ib, hib, hibe⟩ := exists_getD_of_mem ("", []) ps hbmem
    refine Relation.ReflTransGen.tail (ih i ib hi hib hpi hibe) ?_
    have hibX : ib < (ps.map (·.2)).length := by
      rw [List.length_map]; exact hib
    have hjX : j < (ps.map (·.2)).length := by
      rw [List.length_map]; exact hj
    refine ⟨hibX, hjX, ?_, ?_, ?_⟩
    · refine mem_nbrsOf.mpr ⟨hjX, ?_⟩
      rw [getD_map_lt _ _ ("", []) [] hib, getD_map_lt _ _ ("", []) [] hj,
        hibe, hpj]
      exact hadj.2.2
    · refine (isCore_iff_MCore ps hnodup hib).mpr ?_
      rw [hibe]
      exact hadj.1
    · refine (isCore_iff_MCore ps hnodup hj).mpr ?_
      rw [hpj]
      exact hadj.2.1

theorem MCore_perm {ps qs : List (String × List Bool)} (h : ps.Perm qs)
    {p : String × List Bool} : MCore ps p ↔ MCore qs p := by
  constructor
  · rintro ⟨h1, q, hq, h2, h3⟩
    exact ⟨h.mem_iff.mp h1, q, h.mem_iff.mp hq, h2, h3⟩
  · rintro ⟨h1, q, hq, h2, h3⟩
    exact ⟨h.mem_iff.mpr h1, q, h.mem_iff.mpr hq, h2, h3⟩

theorem MAdj_perm {ps qs : List (String × List Bool)} (h : ps.Perm qs)
    {p q : String × List Bool} : MAdj ps p q ↔ MAdj qs p q := by
  unfold MAdj
  rw [MCore_perm h, MCore_perm h]

theorem MConn_perm {ps qs : List (String × List Bool)} (h : ps.Perm qs)
    {p q : String × List Bool} : MConn ps p q ↔ MConn qs p q := by
  constructor
  · intro hc
    induction hc with
    | refl => exact Relation.ReflTransGen.refl
    | tail _ hadj ih =>
      exact Relation.ReflTransGen.tail ih ((MAdj_perm h).mp hadj)
  · intro hc
    induction hc with
    | refl => exact Relation.ReflTransGen.refl
    | tail _ hadj ih =>
      exact Relation.ReflTransGen.tail ih ((MAdj_perm h).mpr hadj)

theorem sameCluster_iff_MConn (ps : List (String × List Bool))
    (hnodup : (ps.map (·.1)).Nodup) (hsl : SameLen (ps.map (·.2)))
    (x y : String) :
    sameCluster ps x y ↔
      ∃ p ∈ ps, ∃ q ∈ ps, p.1 = x ∧ q.1 = y ∧
        MCore ps p ∧ MCore ps q ∧ MConn ps p q := by
  have heps : (0 : ℚ) ≤ mkRat 1 4 := by decide
  have hLlen : (dbscanLabels (ps.map (·.2)) (mkRat 1 4) 2).length =
      ps.length := by
    rw [dbscanLabels_length, List.length_map]
  have hnmslen : (ps.map (·.1)).length = ps.length := List.length_map _ _
  constructor
  · rintro ⟨l, fs, hmem, hl, hx, hy⟩
    have hmem' : (l, fs) ∈ groupFold []
        ((dbscanLabels (ps.map (·.2)) (mkRat 1 4) 2).zip (ps.map (·.1))) :=
      hmem
    have hgx := bucket_sound _ [] l fs x hmem' hx
    have hgy := bucket_sound _ [] l fs y hmem' hy
    rcases hgx with ⟨fs1, h2, _⟩ | hgx
    · simp at h2
    rcases hgy with ⟨fs1, h2, _⟩ | hgy
    · simp at h2
    obtain ⟨ix, hix1, hix2, hix3, hix4⟩ := (mem_zip_iff_getD _ _ _ _).mp hgx
    obtain ⟨iy, hiy1, hiy2, hiy3, hiy4⟩ := (mem_zip_iff_getD _ _ _ _).mp hgy
    have hix' : ix < ps.length := by rwa [hLlen] at hix1
    have hiy' : iy < ps.length := by rwa [hLlen] at hiy1
    have hixX : ix < (ps.map (·.2)).length := by
      rw [List.length_map]; exact hix'
    have hiyX : iy < (ps.map (·.2)).length := by
      rw [List.length_map]; exact hiy'
    have hcx : isCoreOf (ps.map (·.2)) (mkRat 1 4) 2 ix = true := by
      by_contra hc
      rw [Bool.not_eq_true] at hc
      have h3 := (dbscanLabels_noise_iff heps hsl hixX).mpr hc
      rw [hix3] at h3
      exact hl h3
    have hcy : isCoreOf (ps.map (·.2)) (mkRat 1 4) 2 iy = true := by
      by_contra hc
      rw [Bool.not_eq_true] at hc
      have h3 := (dbscanLabels_noise_iff heps hsl hiyX).mpr hc
      rw [hiy3] at h3
      exact hl h3
    have hconn := (dbscanLabels_conn_iff heps hsl hixX hiyX hcx hcy).mp
      (by rw [hix3, hiy3])
    refine ⟨ps.getD ix ("", []), getD_mem_any _ _ _ hix',
      ps.getD iy ("", []), getD_mem_any _ _ _ hiy', ?_, ?_, ?_, ?_, ?_⟩
    · rw [← getD_map_lt (·.1) ps ("", []) "" hix']
      exact hix4
    · rw [← getD_map_lt (·.1) ps ("", []) "" hiy']
      exact hiy4
    · exact (isCore_iff_MCore ps hnodup hix').mp hcx
    · exact (isCore_iff_MCore ps hnodup hiy').mp hcy
    · exact coreConn_to_MConn ps hnodup hconn
  · rintro ⟨p, hp, q, hq, hpx, hqy, hcp, hcq, hconn⟩
    obtain ⟨ix, hix, hixe⟩ := exists_getD_of_mem ("", []) ps hp
    obtain ⟨iy, hiy, hiye⟩ := exists_getD_of_mem ("", []) ps hq
    have hixX : ix < (ps.map (·.2)).length := by
      rw [List.length_map]; exact hix
    have hiyX : iy < (ps.map (·.2)).length := by
      rw [List.length_map]; exact hiy
    have hcx : isCoreOf (ps.map (·.2)) (mkRat 1 4) 2 ix = true := by
      refine (isCore_iff_MCore ps hnodup hix).mpr ?_
      rw [hixe]
      exact hcp
    have hcy : isCoreOf (ps.map (·.2)) (mkRat 1 4) 2 iy = true := by
      refine (isCore_iff_MCore ps hnodup hiy).mpr ?_
      rw [hiye]
      exact hcq
    have hCC := MConn_to_coreConn ps hnodup hconn ix iy hix hiy hixe hiye
    have hleq : (dbscanLabels (ps.map (·.2)) (mkRat 1 4) 2).getD ix 0 =
        (dbscanLabels (ps.map (·.2)) (mkRat 1 4) 2).getD iy 0 :=
      (dbscanLabels_conn_iff heps hsl hixX hiyX hcx hcy).mpr hCC
    have hlne : (dbscanLabels (ps.map (·.2)) (mkRat 1 4) 2).getD ix 0 ≠ -1 := by
      intro h
      have h3 := (dbscanLabels_noise_iff heps hsl hixX).mp h
      rw [hcx] at h3
      exact absurd h3 (by decide)
    have hzx : ((dbscanLabels (ps.map (·.2)) (mkRat 1 4) 2).getD ix 0, x) ∈
        (dbscanLabels (ps.map (·.2)) (mkRat 1 4) 2).zip (ps.map (·.1)) := by
      refine (mem_zip_iff_getD _ _ _ _).mpr
        ⟨ix, by rw [hLlen]; exact hix, by rw [hnmslen]; exact hix, rfl, ?_⟩
      rw [getD_map_lt (·.1) ps ("", []) "" hix, hixe, hpx]
    have hzy : ((dbscanLabels (ps.map (·.2)) (mkRat 1 4) 2).getD ix 0, y) ∈
        (dbscanLabels (ps.map (·.2)) (mkRat 1 4) 2).zip (ps.map (·.1)) := by
      refine (mem_zip_iff_getD _ _ _ _).mpr
        ⟨iy, by rw [hLlen]; exact hiy, by rw [hnmslen]; exact hiy,
          hleq.symm, ?_⟩
      rw [getD_map_lt (·.1) ps ("", []) "" hiy, hiye, hqy]
    obtain ⟨fsx, hfx1, hfx2⟩ := bucket_complete _ [] _ x hzx
    obtain ⟨fsy, hfy1, hfy2⟩ := bucket_complete _ [] _ y hzy
    have hkeys := groupByLabel_keys_nodup
      ((dbscanLabels (ps.map (·.2)) (mkRat 1 4) 2).zip (ps.map (·.1)))
    have heqfs : fsx = fsy := bucket_unique hkeys hfx1 hfy1
    exact ⟨_, fsx, hfx1, hlne, hfx2, heqfs ▸ hfy2⟩

theorem noiseDoc_iff_not_MCore (ps : List (String × List Bool))
    (hnodup : (ps.map (·.1)).Nodup) (hsl : SameLen (ps.map (·.2)))
    (x : String) :
    noiseDoc ps x ↔ ∃ p ∈ ps, p.1 = x ∧ ¬ MCore ps p := by
  have heps : (0 : ℚ) ≤ mkRat 1 4 := by decide
  have hLlen : (dbscanLabels (ps.map (·.2)) (mkRat 1 4) 2).length =
      ps.length := by
    rw [dbscanLabels_length, List.length_map]
  have hnmslen : (ps.map (·.1)).length = ps.length := List.length_map _ _
  constructor
  · rintro ⟨fs, hmem, hx⟩
    have hmem' : ((-1 : Int), fs) ∈ groupFold []
        ((dbscanLabels (ps.map (·.2)) (mkRat 1 4) 2).zip (ps.map (·.1))) :=
      hmem
    have hgx := bucket_sound _ [] (-1) fs x hmem' hx
    rcases hgx with ⟨fs1, h2, _⟩ | hgx
    · simp at h2
    obtain ⟨ix, hix1, hix2, hix3, hix4⟩ := (mem_zip_iff_getD _ _ _ _).mp hgx
    have hix' : ix < ps.length := by rwa [hLlen] at hix1
    have hixX : ix < (ps.map (·.2)).length := by
      rw [List.length_map]; exact hix'
    have hnc := (dbscanLabels_noise_iff heps hsl hixX).mp hix3
    refine ⟨ps.getD ix ("", []), getD_mem_any _ _ _ hix', ?_, ?_⟩
    · rw [← getD_map_lt (·.1) ps ("", []) "" hix']
      exact hix4
    · intro hc
      have h4 := (isCore_iff_MCore ps hnodup hix').mpr hc
      rw [hnc] at h4
      exact absurd h4 (by decide)
  · rintro ⟨p, hp, hpx, hnc⟩
    obtain ⟨ix, hix, hixe⟩ := exists_getD_of_mem ("", []) ps hp
    have hixX : ix < (ps.map (·.2)).length := by
      rw [List.length_map]; exact hix
    have hcx : isCoreOf (ps.map (·.2)) (mkRat 1 4) 2 ix = false := by
      by_contra hc
      rw [Bool.not_eq_false] at hc
      refine hnc ?_
      have h4 := (isCore_iff_MCore ps hnodup hix).mp hc
      rwa [hixe] at h4
    have hlab := (dbscanLabels_noise_iff heps hsl hixX).mpr hcx
    have hzx : ((-1 : Int), x) ∈
        (dbscanLabels (ps.map (·.2)) (mkRat 1 4) 2).zip (ps.map (·.1)) := by
      refine (mem_zip_iff_getD _ _ _ _).mpr
        ⟨ix, by rw [hLlen]; exact hix, by rw [hnmslen]; exact hix, hlab, ?_⟩
      rw [getD_map_lt (·.1) ps ("", []) "" hix, hixe, hpx]
    obtain ⟨fs, hf1, hf2⟩ := bucket_complete _ [] (-1) x hzx
    exact ⟨fs, hf1, hf2⟩

/-- C9: the partition produced by the clustering — which documents share a
non-noise group and which documents are noise — depends only on the set of
(document identifier, Fingerprint) pairs, not on the order they are
presented in: any permutation of the input yields the same membership
grouping.  (Determinism for a literally identical input is immediate since
the embedding is a pure function; this is the stronger, order-independent
reading.  It holds because with `min_samples = 2` there are no border
points, so the partition is exactly the core-connectivity partition, a
function of the set alone.) -/
theorem claim_C9 (ps qs : List (String × List Bool))
    (hperm : ps.Perm qs) (hnodup : (ps.map (·.1)).Nodup)
    (hlen : ∀ p ∈ ps, ∀ q ∈ ps, p.2.length = q.2.length) :
    (∀ x y, sameCluster ps x y ↔ sameCluster qs x y) ∧
      (∀ x, noiseDoc ps x ↔ noiseDoc qs x) := by
  have hnodup2 : (qs.map (·.1)).Nodup := (hperm.map (·.1)).nodup_iff.mp hnodup
  have hlen2 : ∀ p ∈ qs, ∀ q ∈ qs, p.2.length = q.2.length := by
    intro p hp q hq
    exact hlen p (hperm.mem_iff.mpr hp) q (hperm.mem_iff.mpr hq)
  have hsl : SameLen (ps.map (·.2)) := by
    intro u hu w hw
    rcases List.mem_map.mp hu with ⟨p, hp, hpu⟩
    rcases List.mem_map.mp hw with ⟨q, hq, hqw⟩
    rw [← hpu, ← hqw]
    exact hlen p hp q hq
  have hsl2 : SameLen (qs.map (·.2)) := by
    intro u hu w hw
    rcases List.mem_map.mp hu with ⟨p, hp, hpu⟩
    rcases List.mem_map.mp hw with ⟨q, hq, hqw⟩
    rw [← hpu, ← hqw]
    exact hlen2 p hp q hq
  constructor
  · intro x y
    rw [sameCluster_iff_MConn ps hnodup hsl x y,
      sameCluster_iff_MConn qs hnodup2 hsl2 x y]
    constructor
    · rintro ⟨p, hp, q, hq, h1, h2, h3, h4, h5⟩
      exact ⟨p, hperm.mem_iff.mp hp, q, hperm.mem_iff.mp hq, h1, h2,
        (MCore_perm hperm).mp h3, (MCore_perm hperm).mp h4,
        (MConn_perm hperm).mp h5⟩
    · rintro ⟨p, hp, q, hq, h1, h2, h3, h4, h5⟩
      exact ⟨p, hperm.mem_iff.mpr hp, q, hperm.mem_iff.mpr hq, h1, h2,
        (MCore_perm hperm).mpr h3, (MCore_perm hperm).mpr h4,
        (MConn_perm hperm).mpr h5⟩
  · intro x
    rw [noiseDoc_iff_not_MCore ps hnodup hsl x,
      noiseDoc_iff_not_MCore qs hnodup2 hsl2 x]
    constructor
    · rintro ⟨p, hp, h1, h2⟩
      exact ⟨p, hperm.mem_iff.mp hp, h1,
        fun hc => h2 ((MCore_perm hperm).mpr hc)⟩
    · rintro ⟨p, hp, h1, h2⟩
      exact ⟨p, hperm.mem_iff.mpr hp, h1,
        fun hc => h2 ((MCore_perm hperm).mp hc)⟩

/-- Witness for C9: `psW` presented in reverse order yields the same
membership grouping and the same noise set. -/
theorem claim_C9_witness :
    (psW.Perm psW.reverse ∧ (psW.map (·.1)).Nodup ∧
      ∀ p ∈ psW, ∀ q ∈ psW, p.2.length = q.2.length) ∧
      ((∀ x y, sameCluster psW x y ↔ sameCluster psW.reverse x y) ∧
        (∀ x, noiseDoc psW x ↔ noiseDoc psW.reverse x)) :=
  ⟨⟨(List.reverse_perm psW).symm, by decide, by decide⟩,
    claim_C9 psW psW.reverse (List.reverse_perm psW).symm
      (by decide) (by decide)⟩
